import Mathlib

/-!
Verification of the hyena automaton-network engine.

This file shallowly embeds the parts of the repository that the claims
concern:

* `src/hyena/ena.py` — the `System`/`Node`/`Location`/`Transition`
  dataclasses and the successor generator `System.succ`;
* `src/hyena/__init__.py` — state capture (`Struct.state` getter), state
  assignment (`Struct.state` setter), the `Method.__call__` wrapper and
  the `Jump` exception;
* `src/hyena/reach.py` — the worklist `Explorer` (`__iter__`, `trace`);
* `src/hyena/simul.py` — the structural state `diff`.

For the ena system family, the only mutable fields are the per-node
`current` indices, so a captured `State` is embedded as the list of
currents (one per node, in node order), and the live mutable part of a
`System` is the same list.
-/

namespace Hyena

/-- Identifies a candidate transition: the tuple
`("nodes", node, "locations", loc, "transitions", tr)` built by
`System.succ`, keeping only the three indices. -/
structure TPath where
  node : Nat
  loc : Nat
  tr : Nat
deriving DecidableEq

/-- Outcome of running a transition action body.  The body either returns
a value (`ret none` is Python `None`, meaning the transition does not
fire; `ret (some c)` is an int cost), raises `Abort`, raises `Jump`
(carrying the computed `jumps` dict as an association list from node
index to assigned location index, in dict iteration order, keys
distinct), or raises some other exception.

The `Abort` exception class is referenced by `ena.py` but its definition
is not present under `src/`; it is modelled from the spec: an action
signalling "does not fire" by raising, caught and skipped by `succ`. -/
inductive ActRes where
  | ret : Option Int → ActRes
  | abortRaised : ActRes
  | jumpRaised : List (Nat × Int) → ActRes
  | otherRaised : ActRes
deriving DecidableEq

/-- An action body, as `System.succ` observes it: reading the live
currents vector, it performs a sequence of `node.current = v` writes
(each a pair of node index and new value) and finishes with an
`ActRes`.  Actions in the repo reach nodes only through the bound
`system`/`node` objects, so writes to `current` fields are the only
mutations of captured state they can make. -/
def Action : Type := List Nat → List (Nat × Nat) × ActRes

/-- Embeds `ena.Transition`: the constant `target` location index and the
bound action. -/
structure Transition where
  target : Nat
  act : Action

/-- Embeds `ena.Location`: the constant list of outgoing transitions. -/
structure Location where
  transitions : List Transition

/-- Embeds `ena.Node`: constant inputs (node indices) and constant
locations.  The mutable `current` field lives in the separate currents
vector. -/
structure Node where
  inputs : List Nat
  locations : List Location

/-- Embeds `ena.System`: the constant list of nodes. -/
structure Sys where
  nodes : List Node

/-- Embeds the `Struct.state` setter for an ena system: for the `nodes`
entry the setter runs `for s, v in zip(self.nodes, val): s.state = v`,
writing each node state (its `current`) pairwise and stopping at the
shorter sequence.  Writing state `new` into a system whose currents are
`cur` therefore keeps `cur`'s length, takes `new` on the common prefix
and keeps `cur` beyond `new`'s length. -/
def setState (cur new : List Nat) : List Nat :=
  new.take cur.length ++ cur.drop new.length

/-- Applies a sequence of `node.current = v` writes to the currents
vector (an out-of-range node index writes nothing, matching that actions
can only write through existing node objects). -/
def applyWrites (cur : List Nat) (ws : List (Nat × Nat)) : List Nat :=
  ws.foldl (fun l w => l.set w.1 w.2) cur

/-- Embeds `Method.__call__` from `src/hyena/__init__.py` for a bound
action (`self.action` true): it snapshots `system.state`, runs the
function body, and if the body returned `None` writes the snapshot back
before returning; a raising body skips the restore. -/
def methodCall (isAction : Bool) (f : Action) (live : List Nat) :
    List Nat × ActRes :=
  let pre := live
  let (ws, r) := f live
  let l1 := applyWrites live ws
  match isAction, r with
  | true, .ret none => (setState l1 pre, .ret none)
  | _, _ => (l1, r)

/-- Looks up `self[path]`, i.e. `nodes[n].locations[c].transitions[t]`. -/
def lookupTrans (sys : Sys) (p : TPath) : Option Transition := do
  let nd ← sys.nodes[p.node]?
  let lc ← nd.locations[p.loc]?
  lc.transitions[p.tr]?

/-- Builds the `todo` list of `System.succ`: for each node `n` (in
order), the current location index is read and each of its transitions
contributes a path `(n, current, t)` with `t` increasing.  Reading a
location with an out-of-range `current` is a Python `IndexError`,
embedded as `none`. -/
def todoGo : Nat → List Node → List Nat → Option (List TPath)
  | _, [], _ => some []
  | _, _ :: _, [] => none
  | n, node :: ns, c :: cs =>
    match node.locations[c]? with
    | none => none
    | some loc =>
      (todoGo (n + 1) ns cs).map
        (fun rest =>
          ((List.range loc.transitions.length).map
            (fun t => TPath.mk n c t)) ++ rest)

/-- The candidate list of `System.succ` over the currents read from the
live system after the explored state has been written in. -/
def todoOf (sys : Sys) (cur : List Nat) : Option (List TPath) :=
  todoGo 0 sys.nodes cur

/-- Error raised while applying the `jumps` dict of a `Jump`. -/
inductive JErr where
  | badLoc : Nat → Int → JErr
  | badNode : Nat → JErr
deriving DecidableEq

/-- Applies the `jumps` items of a caught `Jump` in order, as the
`except Jump` handler does: each node index is looked up
(an out-of-range index is an IndexError, `badNode`), then the assigned
location is range-checked: an out-of-range location raises
`ValueError(f"invalid jump to loc in node nid")`, embedded as
`badLoc nid loc`.  Returns the currents after the writes performed so
far together with the error, if any. -/
def applyJumps (sys : Sys) : List Nat → List (Nat × Int) →
    List Nat × Option JErr
  | live, [] => (live, none)
  | live, (nid, loc) :: rest =>
    match sys.nodes[nid]? with
    | none => (live, some (.badNode nid))
    | some node =>
      if 0 ≤ loc ∧ loc < (node.locations.length : Int) then
        applyJumps sys (live.set nid loc.toNat) rest
      else
        (live, some (.badLoc nid loc))

/-- One yielded triple `(self.state, path, cost)` of `System.succ`. -/
structure Evt where
  state : List Nat
  path : TPath
  cost : Int
deriving DecidableEq

/-- How a complete run of the `System.succ` generator ends: `ok` after
the last candidate, or with a propagated exception.  `valueErr` is the
`ValueError` for an invalid jump target (carrying the offending node
index and location index), `attrErr` is the `AttributeError` raised by
`jmp.cost` (the `Jump` class of `src/hyena/__init__.py` defines no
`cost` attribute), `userErr` is an exception from the action body, and
`idxErr` is an IndexError from an out-of-range index. -/
inductive SuccEnd where
  | ok : SuccEnd
  | valueErr : Nat → Int → SuccEnd
  | attrErr : SuccEnd
  | userErr : SuccEnd
  | idxErr : SuccEnd
deriving DecidableEq

/-- A complete run of the `System.succ` generator: the yielded events in
order, how the run ended, and the live currents of the system after the
run. -/
structure SuccRun where
  events : List Evt
  fin : SuccEnd
  live : List Nat
deriving DecidableEq

/-- The candidate loop of `System.succ`, embedded statement by
statement.  `old` is the snapshot taken on entry, `s` the explored
state, `live` the live currents when the iteration starts.  Per
candidate: `trans = self[path]`; `self.state = state`; the action is
called through the `Method.__call__` wrapper; a `None` return or an
`Abort` yields nothing; an int return applies
`self[path[:2]].current = trans.target` and yields; a `Jump` applies its
assignments and then evaluates `jmp.cost`, which raises AttributeError;
any other exception propagates.  The `finally` clause writes `old` back
on every exit of the iteration body. -/
def succList (sys : Sys) (old s : List Nat) :
    List TPath → List Nat → SuccRun
  | [], live => ⟨[], .ok, live⟩
  | p :: rest, live =>
    match lookupTrans sys p with
    | none => ⟨[], .idxErr, live⟩
    | some tr =>
      let l0 := setState live s
      match methodCall true tr.act l0 with
      | (l1, .ret none) => succList sys old s rest (setState l1 old)
      | (l1, .ret (some c)) =>
        let l2 := l1.set p.node tr.target
        let r := succList sys old s rest (setState l2 old)
        ⟨⟨l2, p, c⟩ :: r.events, r.fin, r.live⟩
      | (l1, .abortRaised) => succList sys old s rest (setState l1 old)
      | (l1, .otherRaised) => ⟨[], .userErr, setState l1 old⟩
      | (l1, .jumpRaised js) =>
        match applyJumps sys l1 js with
        | (l2, none) => ⟨[], .attrErr, setState l2 old⟩
        | (l2, some (.badLoc nid loc)) =>
          ⟨[], .valueErr nid loc, setState l2 old⟩
        | (l2, some (.badNode _)) => ⟨[], .idxErr, setState l2 old⟩

/-- Embeds a complete run of `System.succ(state)` from
`src/hyena/ena.py`.  `old` is the live state on entry (`old =
self.state`); a `none` argument explores from `old` itself; otherwise
the argument is written into the system before the candidate list is
built. -/
def succPy (sys : Sys) (old : List Nat) (stateArg : Option (List Nat)) :
    SuccRun :=
  match stateArg with
  | none =>
    match todoOf sys old with
    | none => ⟨[], .idxErr, old⟩
    | some td => succList sys old old td old
  | some s =>
    let live := setState old s
    match todoOf sys live with
    | none => ⟨[], .idxErr, live⟩
    | some td => succList sys old s td live

/-- Outcome of evaluating a single candidate transition against the
explored state, isolated from every other candidate.  This is the
spec-side notion used by the isolation property: `skip` for "does not
fire", `fire st c` for a yielded event with resulting state `st` and
cost `c`, and the error outcomes matching `SuccEnd`. -/
inductive CandOut where
  | skip : CandOut
  | fire : List Nat → Int → CandOut
  | attrE : CandOut
  | valueE : Nat → Int → CandOut
  | userE : CandOut
  | idxE : CandOut
deriving DecidableEq

/-- Evaluates one candidate transition on a system whose live state is
exactly the explored state `s`, following the spec wording: restore to
`s`, run the action, and translate its outcome; no other candidate is
involved. -/
def evalCand (sys : Sys) (s : List Nat) (p : TPath) : CandOut :=
  match lookupTrans sys p with
  | none => .idxE
  | some tr =>
    match methodCall true tr.act s with
    | (_, .ret none) => .skip
    | (l1, .ret (some c)) => .fire (l1.set p.node tr.target) c
    | (_, .abortRaised) => .skip
    | (_, .otherRaised) => .userE
    | (l1, .jumpRaised js) =>
      match applyJumps sys l1 js with
      | (_, none) => .attrE
      | (_, some (.badLoc nid loc)) => .valueE nid loc
      | (_, some (.badNode _)) => .idxE

/-- Assembles the per-candidate outcomes into the run's event list and
final result: firing candidates yield in order, skipped candidates yield
nothing, and the first erroring candidate aborts the remainder of the
run. -/
def assembleOut : List (TPath × CandOut) → List Evt × SuccEnd
  | [] => ([], .ok)
  | (p, o) :: rest =>
    match o with
    | .skip => assembleOut rest
    | .fire st c =>
      let r := assembleOut rest
      (⟨st, p, c⟩ :: r.1, r.2)
    | .attrE => ([], .attrErr)
    | .valueE n l => ([], .valueErr n l)
    | .userE => ([], .userErr)
    | .idxE => ([], .idxErr)

/-- Spec-side description of a complete `succ(state)` run, following the
spec's algorithm: each candidate of the canonical `todo` list is
evaluated independently against the explored state `s`, the outcomes are
assembled in order, and afterwards the system is restored to the prior
state `old` (except that a run with an empty candidate list never
executes the loop body and so never restores). -/
def succSpec (sys : Sys) (old s : List Nat) : SuccRun :=
  match todoOf sys s with
  | none => ⟨[], .idxErr, s⟩
  | some td =>
    let r := assembleOut (td.map (fun p => (p, evalCand sys s p)))
    ⟨r.1, r.2, if td.isEmpty then s else old⟩

/-! Basic length and `setState` lemmas. -/

theorem setState_length (cur new : List Nat) :
    (setState cur new).length = cur.length := by
  simp only [setState, List.length_append, List.length_take,
    List.length_drop]
  omega

theorem setState_of_length_eq {cur new : List Nat}
    (h : new.length = cur.length) : setState cur new = new := by
  simp [setState, h, List.take_of_length_le, List.drop_eq_nil_of_le]

theorem applyWrites_length (cur : List Nat) (ws : List (Nat × Nat)) :
    (applyWrites cur ws).length = cur.length := by
  induction ws generalizing cur with
  | nil => rfl
  | cons w ws ih => simpa [applyWrites] using ih (cur.set w.1 w.2)

theorem methodCall_length (b : Bool) (f : Action) (live : List Nat) :
    (methodCall b f live).1.length = live.length := by
  unfold methodCall
  rcases hf : f live with ⟨ws, r⟩
  rcases b <;> rcases r with (_ | _) | _ | _ | _ <;>
    simp [setState_length, applyWrites_length]

theorem applyJumps_length (sys : Sys) (live : List Nat)
    (js : List (Nat × Int)) :
    ((applyJumps sys live js).1).length = live.length := by
  induction js generalizing live with
  | nil => rfl
  | cons j rest ih =>
    rcases j with ⟨nid, loc⟩
    unfold applyJumps
    rcases h : sys.nodes[nid]? with _ | node
    · rfl
    · simp only
      split
      · simpa using ih (live.set nid loc.toNat)
      · rfl

theorem todoGo_lookup (sys : Sys) :
    ∀ (n : Nat) (ns : List Node) (cs : List Nat) (td : List TPath),
      todoGo n ns cs = some td → ns = sys.nodes.drop n →
      ∀ p ∈ td, (lookupTrans sys p).isSome := by
  intro n ns
  induction ns generalizing n with
  | nil =>
    intro cs td h _ p hp
    cases cs <;> (simp [todoGo] at h; subst h; simp at hp)
  | cons node ns ih =>
    intro cs td h hdrop p hp
    cases cs with
    | nil => simp [todoGo] at h
    | cons c cs =>
      simp only [todoGo] at h
      rcases hloc : node.locations[c]? with _ | loc
      · rw [hloc] at h; exact absurd h (by simp)
      · rw [hloc] at h
        rcases hrest : todoGo (n + 1) ns cs with _ | rest
        · rw [hrest] at h; exact absurd h (by simp)
        · rw [hrest] at h
          simp only [Option.map_some', Option.some_inj] at h
          subst h
          have hnode : sys.nodes[n]? = some node := by
            have := congrArg (fun l => l[0]?) hdrop
            simpa [List.getElem?_drop] using this.symm
          rcases List.mem_append.mp hp with hin | hin
          · rcases List.mem_map.mp hin with ⟨t, ht, rfl⟩
            have htlt : t < loc.transitions.length :=
              List.mem_range.mp ht
            simp [lookupTrans, hnode, hloc, List.getElem?_eq_getElem htlt,
              Option.isSome, Option.bind]
          · refine ih (n + 1) cs rest hrest ?_ p hin
            have := congrArg (fun l => l.drop 1) hdrop
            simpa [List.drop_drop, Nat.add_comm] using this

theorem succList_eq_spec (sys : Sys) (old s : List Nat)
    (hs : s.length = old.length) :
    ∀ (td : List TPath) (live : List Nat), live.length = old.length →
      (∀ p ∈ td, (lookupTrans sys p).isSome) →
      succList sys old s td live =
        ⟨(assembleOut (td.map fun p => (p, evalCand sys s p))).1,
         (assembleOut (td.map fun p => (p, evalCand sys s p))).2,
         if td.isEmpty then live else old⟩ := by
  intro td
  induction td with
  | nil => intro live _ _; rfl
  | cons p rest ih =>
    intro live hlive hlk
    have hp : (lookupTrans sys p).isSome := hlk p (by simp)
    have hrest : ∀ q ∈ rest, (lookupTrans sys q).isSome := by
      intro q hq; exact hlk q (by simp [hq])
    rcases htr : lookupTrans sys p with _ | tr
    · rw [htr] at hp; simp at hp
    · have hl0 : setState live s = s :=
        setState_of_length_eq (by omega)
      rcases hmc : methodCall true tr.act s with ⟨l1, r⟩
      have hl1 : l1.length = old.length := by
        have := methodCall_length true tr.act s
        rw [hmc] at this
        simpa [hs] using this
      have hback : ∀ l : List Nat, l.length = old.length →
          setState l old = old := by
        intro l hl; exact setState_of_length_eq hl.symm
      rcases r with (_ | c) | _ | js | _
      · -- ret none: no event
        have : succList sys old s (p :: rest) live =
            succList sys old s rest (setState l1 old) := by
          simp only [succList, htr, hl0, hmc]
        rw [this, hback l1 hl1,
          ih old rfl hrest]
        simp [assembleOut, evalCand, htr, hmc]
      · -- ret (some c): yields an event
        have : succList sys old s (p :: rest) live =
            ⟨⟨l1.set p.node tr.target, p, c⟩ ::
               (succList sys old s rest
                 (setState (l1.set p.node tr.target) old)).events,
             (succList sys old s rest
               (setState (l1.set p.node tr.target) old)).fin,
             (succList sys old s rest
               (setState (l1.set p.node tr.target) old)).live⟩ := by
          simp only [succList, htr, hl0, hmc]
        rw [this, hback (l1.set p.node tr.target) (by simp [hl1]),
          ih old rfl hrest]
        simp only [List.map_cons, assembleOut, evalCand, htr, hmc]
        simp
      · -- Abort raised: no event
        have : succList sys old s (p :: rest) live =
            succList sys old s rest (setState l1 old) := by
          simp only [succList, htr, hl0, hmc]
        rw [this, hback l1 hl1, ih old rfl hrest]
        simp [assembleOut, evalCand, htr, hmc]
      · -- Jump raised
        rcases hj : applyJumps sys l1 js with ⟨l2, e⟩
        have hl2 : l2.length = old.length := by
          have := applyJumps_length sys l1 js
          rw [hj] at this
          simpa [hl1] using this
        rcases e with _ | je
        · have : succList sys old s (p :: rest) live =
              ⟨[], .attrErr, setState l2 old⟩ := by
            simp only [succList, htr, hl0, hmc, hj]
          rw [this, hback l2 hl2]
          simp [assembleOut, evalCand, htr, hmc, hj]
        · rcases je with ⟨nid, loc⟩ | nid
          · have : succList sys old s (p :: rest) live =
                ⟨[], .valueErr nid loc, setState l2 old⟩ := by
              simp only [succList, htr, hl0, hmc, hj]
            rw [this, hback l2 hl2]
            simp [assembleOut, evalCand, htr, hmc, hj]
          · have : succList sys old s (p :: rest) live =
                ⟨[], .idxErr, setState l2 old⟩ := by
              simp only [succList, htr, hl0, hmc, hj]
            rw [this, hback l2 hl2]
            simp [assembleOut, evalCand, htr, hmc, hj]
      · -- other exception
        have : succList sys old s (p :: rest) live =
            ⟨[], .userErr, setState l1 old⟩ := by
          simp only [succList, htr, hl0, hmc]
        rw [this, hback l1 hl1]
        simp [assembleOut, evalCand, htr, hmc]

theorem todoOf_lookup (sys : Sys) (cur : List Nat) (td : List TPath)
    (h : todoOf sys cur = some td) :
    ∀ p ∈ td, (lookupTrans sys p).isSome :=
  todoGo_lookup sys 0 sys.nodes cur td h (by simp)

/-- A complete run of `succ(s)` behaves exactly as the spec-side
description: every candidate is evaluated in isolation against `s` and
the outcomes are assembled in canonical order. -/
theorem succPy_eq_spec (sys : Sys) (old s : List Nat)
    (hs : s.length = old.length) :
    succPy sys old (some s) = succSpec sys old s := by
  have hset : setState old s = s := setState_of_length_eq hs
  unfold succPy succSpec
  simp only [hset]
  rcases htd : todoOf sys s with _ | td
  · simp [htd]
  · simp only [htd,
      succList_eq_spec sys old s hs td s hs (todoOf_lookup sys s td htd)]

/-- Calling `succ()` with no argument always leaves the live state
untouched: the prologue never writes, and each loop iteration restores
`old` in its `finally`. -/
theorem succPy_none_live (sys : Sys) (old : List Nat) :
    (succPy sys old none).live = old := by
  unfold succPy
  rcases htd : todoOf sys old with _ | td
  · simp [htd]
  · simp only [htd,
      succList_eq_spec sys old old rfl td old rfl
        (todoOf_lookup sys old td htd)]
    by_cases h : td.isEmpty <;> simp [h]

/-- C1 (amended): after a complete run of `System.succ(s)` — whether it
consumed all candidates or stopped at an error raised while evaluating a
candidate — the live state equals the state held before the call,
provided the run either passed no explicit state (`state=None`), or its
candidate list is nonempty, or the explored state equals the prior
state.  (When `succ(s)` is called with `s` different from the live state
and no node's current location has an outgoing transition, the loop body
never runs and the prologue's write of `s` is never undone: the live
state is left equal to `s`, not restored.) -/
theorem succ_restore_amended (sys : Sys) (old s : List Nat)
    (td : List TPath) (hs : s.length = old.length)
    (htd : todoOf sys s = some td) (hne : td ≠ [] ∨ s = old) :
    (succPy sys old (some s)).live = old ∧
    (succPy sys old none).live = old := by
  refine ⟨?_, succPy_none_live sys old⟩
  rw [succPy_eq_spec sys old s hs]
  unfold succSpec
  rw [htd]
  rcases hne with hne | rfl
  · simp [List.isEmpty_iff, hne]
  · by_cases h : td.isEmpty <;> simp [h]

theorem succ_restore_amended_witness :
    (([0] : List Nat).length = ([0] : List Nat).length ∧
     todoOf ⟨[⟨[], [⟨[⟨0, fun _ => ([], .ret (some 1))⟩]⟩]⟩]⟩ [0] =
       some [⟨0, 0, 0⟩] ∧
     ([⟨0, 0, 0⟩] : List TPath) ≠ []) ∧
    (succPy ⟨[⟨[], [⟨[⟨0, fun _ => ([], .ret (some 1))⟩]⟩]⟩]⟩ [0]
      (some [0])).live = [0] :=
  ⟨⟨rfl, rfl, by simp⟩,
   (succ_restore_amended ⟨[⟨[], [⟨[⟨0, fun _ => ([], .ret (some 1))⟩]⟩]⟩]⟩
     [0] [0] [⟨0, 0, 0⟩] rfl rfl (Or.inl (by simp))).1⟩

/-- C1 (counterexample): a system with one node whose two locations have
no outgoing transitions.  The live state is `[0]`; running
`succ([1])` to completion leaves the live state at `[1]`, not at the
prior `[0]`: the claimed unconditional restoration fails. -/
theorem succ_restore_counterexample :
    (succPy ⟨[⟨[], [⟨[]⟩, ⟨[]⟩]⟩]⟩ [0] (some [1])).fin = .ok ∧
    (succPy ⟨[⟨[], [⟨[]⟩, ⟨[]⟩]⟩]⟩ [0] (some [1])).live = [1] ∧
    ([1] : List Nat) ≠ [0] :=
  ⟨rfl, rfl, by simp⟩

/-- C2: during `System.succ(s)`, every candidate transition is evaluated
against exactly the state `s`: the whole run equals the assembly of the
isolated per-candidate evaluations `evalCand sys s`, each of which
depends only on the system, `s` and the candidate path — never on what
earlier candidates did. -/
theorem succ_candidates_isolated (sys : Sys) (old s : List Nat)
    (hs : s.length = old.length) :
    succPy sys old (some s) = succSpec sys old s :=
  succPy_eq_spec sys old s hs

theorem succ_candidates_isolated_witness :
    (([0] : List Nat).length = ([0] : List Nat).length) ∧
    succPy ⟨[⟨[], [⟨[⟨0, fun _ => ([], .ret (some 1))⟩]⟩]⟩]⟩ [0]
        (some [0]) =
      succSpec ⟨[⟨[], [⟨[⟨0, fun _ => ([], .ret (some 1))⟩]⟩]⟩]⟩ [0] [0] :=
  ⟨rfl,
   succ_candidates_isolated ⟨[⟨[], [⟨[⟨0, fun _ => ([], .ret (some 1))⟩]⟩]⟩]⟩
     [0] [0] rfl⟩

/-- C10: the `Method.__call__` wrapper itself rolls back: for a bound
action method, whenever the call returns `None` ("does not fire"), the
system state after the call equals the state captured immediately
before it, independently of the writes the body performed. -/
theorem method_call_none_restores (f : Action) (live : List Nat)
    (h : (methodCall true f live).2 = .ret none) :
    (methodCall true f live).1 = live := by
  unfold methodCall at *
  rcases hf : f live with ⟨ws, r⟩
  rw [hf] at h
  rcases r with (_ | c) | _ | js | _ <;> simp_all
  exact setState_of_length_eq (applyWrites_length live ws).symm

theorem method_call_none_restores_witness :
    (methodCall true (fun _ => ([(0, 7)], .ret none)) [1, 2]).2 =
      .ret none ∧
    (methodCall true (fun _ => ([(0, 7)], .ret none)) [1, 2]).1 = [1, 2] :=
  ⟨rfl, method_call_none_restores (fun _ => ([(0, 7)], .ret none)) [1, 2] rfl⟩

/-- Canonical enumeration order of candidates: strictly increasing node
index, and strictly increasing transition index within one node. -/
def pathOrd (p q : TPath) : Prop :=
  p.node < q.node ∨ (p.node = q.node ∧ p.tr < q.tr)

theorem todoGo_props :
    ∀ (n : Nat) (ns : List Node) (cs : List Nat) (td : List TPath),
      todoGo n ns cs = some td →
      (∀ p ∈ td, n ≤ p.node ∧ cs[p.node - n]? = some p.loc) ∧
      td.Pairwise pathOrd := by
  intro n ns
  induction ns generalizing n with
  | nil =>
    intro cs td h
    cases cs <;> (simp [todoGo] at h; subst h; simp)
  | cons node ns ih =>
    intro cs td h
    cases cs with
    | nil => simp [todoGo] at h
    | cons c cs =>
      simp only [todoGo] at h
      rcases hloc : node.locations[c]? with _ | loc
      · rw [hloc] at h; exact absurd h (by simp)
      · rw [hloc] at h
        rcases hrest : todoGo (n + 1) ns cs with _ | rest
        · rw [hrest] at h; exact absurd h (by simp)
        · rw [hrest] at h
          simp only [Option.map_some', Option.some_inj] at h
          subst h
          obtain ⟨ihb, ihp⟩ := ih (n + 1) cs rest hrest
          constructor
          · intro p hp
            rcases List.mem_append.mp hp with hin | hin
            · rcases List.mem_map.mp hin with ⟨t, _, rfl⟩
              simp
            · obtain ⟨hb, hl⟩ := ihb p hin
              refine ⟨by omega, ?_⟩
              have hidx : p.node - n = (p.node - (n + 1)) + 1 := by omega
              rw [hidx, List.getElem?_cons_succ]
              exact hl
          · rw [List.pairwise_append]
            refine ⟨?_, ihp, ?_⟩
            · have hr : (List.range loc.transitions.length).Pairwise
                  (· < ·) := List.pairwise_lt_range _
              exact hr.map _ (fun a b hab => Or.inr ⟨rfl, hab⟩)
            · intro a ha b hb
              rcases List.mem_map.mp ha with ⟨t, _, rfl⟩
              have := (ihb b hb).1
              exact Or.inl (by simpa using by omega)

/-- The event paths produced by assembling per-candidate outcomes form a
subsequence of the candidate list. -/
theorem assembleOut_sublist :
    ∀ l : List (TPath × CandOut),
      ((assembleOut l).1.map Evt.path).Sublist (l.map Prod.fst) := by
  intro l
  induction l with
  | nil => simp [assembleOut]
  | cons x rest ih =>
    rcases x with ⟨p, o⟩
    rcases o with _ | ⟨st, c⟩ | _ | ⟨n, v⟩ | _ | _ <;>
      simp only [assembleOut, List.map_cons]
    · exact ih.cons p
    · exact ih.cons₂ p
    · exact List.nil_sublist _
    · exact List.nil_sublist _
    · exact List.nil_sublist _
    · exact List.nil_sublist _

/-- C5: successor generation is deterministic and canonically ordered:
for a fixed explored state `s`, two complete runs of `succ(s)` (from
possibly different prior live states, e.g. one run after the other)
yield the same events in the same order and end the same way; the
sequence of fired paths is a subsequence of the canonical candidate
list, which enumerates candidates by strictly increasing node index,
then strictly increasing transition index, each within the node's
current location at `s`. -/
theorem succ_deterministic_canonical_order (sys : Sys)
    (old1 old2 s : List Nat) (td : List TPath)
    (h1 : s.length = old1.length) (h2 : s.length = old2.length)
    (htd : todoOf sys s = some td) :
    (succPy sys old1 (some s)).events = (succPy sys old2 (some s)).events ∧
    (succPy sys old1 (some s)).fin = (succPy sys old2 (some s)).fin ∧
    ((succPy sys old1 (some s)).events.map Evt.path).Sublist td ∧
    td.Pairwise pathOrd ∧
    (∀ p ∈ td, s[p.node]? = some p.loc) := by
  have e1 := succPy_eq_spec sys old1 s h1
  have e2 := succPy_eq_spec sys old2 s h2
  have hev : (succSpec sys old1 s).events = (succSpec sys old2 s).events := by
    unfold succSpec
    rw [htd]
  have hfin : (succSpec sys old1 s).fin = (succSpec sys old2 s).fin := by
    unfold succSpec
    rw [htd]
  obtain ⟨hprops, hsorted⟩ := todoGo_props 0 sys.nodes s td htd
  refine ⟨by rw [e1, e2, hev], by rw [e1, e2, hfin], ?_, hsorted, ?_⟩
  · rw [e1]
    have : (succSpec sys old1 s).events =
        (assembleOut (td.map fun p => (p, evalCand sys s p))).1 := by
      unfold succSpec
      rw [htd]
    rw [this]
    have h := assembleOut_sublist (td.map fun p => (p, evalCand sys s p))
    have hid : List.map (Prod.fst ∘ fun p => (p, evalCand sys s p)) td
        = td := by
      have hpt : ∀ a ∈ td,
          (Prod.fst ∘ fun p => (p, evalCand sys s p)) a = id a :=
        fun a _ => rfl
      rw [List.map_congr_left hpt, List.map_id]
    rw [List.map_map, hid] at h
    exact h
  · intro p hp
    simpa using (hprops p hp).2

theorem succ_deterministic_canonical_order_witness :
    (([0] : List Nat).length = ([0] : List Nat).length ∧
     todoOf ⟨[⟨[], [⟨[⟨0, fun _ => ([], .ret (some 1))⟩]⟩]⟩]⟩ [0] =
       some [⟨0, 0, 0⟩]) ∧
    (succPy ⟨[⟨[], [⟨[⟨0, fun _ => ([], .ret (some 1))⟩]⟩]⟩]⟩ [0]
        (some [0])).events =
      (succPy ⟨[⟨[], [⟨[⟨0, fun _ => ([], .ret (some 1))⟩]⟩]⟩]⟩ [0]
        (some [0])).events ∧
    ([⟨0, 0, 0⟩] : List TPath).Pairwise pathOrd :=
  ⟨⟨rfl, rfl⟩,
   (succ_deterministic_canonical_order
     ⟨[⟨[], [⟨[⟨0, fun _ => ([], .ret (some 1))⟩]⟩]⟩]⟩
     [0] [0] [0] [⟨0, 0, 0⟩] rfl rfl rfl).1,
   (succ_deterministic_canonical_order
     ⟨[⟨[], [⟨[⟨0, fun _ => ([], .ret (some 1))⟩]⟩]⟩]⟩
     [0] [0] [0] [⟨0, 0, 0⟩] rfl rfl rfl).2.2.2.1⟩

theorem applyJumps_badLoc (sys : Sys) (nid : Nat) (loc : Int) :
    ∀ (js : List (Nat × Int)) (live : List Nat),
      (applyJumps sys live js).2 = some (.badLoc nid loc) →
      ∃ node, sys.nodes[nid]? = some node ∧
        ¬(0 ≤ loc ∧ loc < (node.locations.length : Int)) := by
  intro js
  induction js with
  | nil => intro live h; simp [applyJumps] at h
  | cons j rest ih =>
    intro live h
    rcases j with ⟨n0, l0⟩
    simp only [applyJumps] at h
    rcases hn : sys.nodes[n0]? with _ | node
    · rw [hn] at h; simp at h
    · simp only [hn] at h
      by_cases hc : 0 ≤ l0 ∧ l0 < (node.locations.length : Int)
      · rw [if_pos hc] at h
        exact ih _ h
      · rw [if_neg hc] at h
        have h2 : n0 = nid ∧ l0 = loc := by simpa using h
        obtain ⟨rfl, rfl⟩ := h2
        exact ⟨node, hn, hc⟩

theorem evalCand_valueE (sys : Sys) (s : List Nat) (p : TPath)
    (nid : Nat) (loc : Int)
    (h : evalCand sys s p = .valueE nid loc) :
    ∃ node, sys.nodes[nid]? = some node ∧
      ¬(0 ≤ loc ∧ loc < (node.locations.length : Int)) := by
  unfold evalCand at h
  rcases htr : lookupTrans sys p with _ | tr
  · rw [htr] at h; simp at h
  · simp only [htr] at h
    rcases hmc : methodCall true tr.act s with ⟨l1, r⟩
    simp only [hmc] at h
    rcases r with (_ | c) | _ | js | _
    · simp at h
    · simp at h
    · simp at h
    · rcases hj : applyJumps sys l1 js with ⟨l2, e⟩
      simp only [hj] at h
      rcases e with _ | je
      · simp at h
      · rcases je with ⟨n0, l0⟩ | n0
        · simp only [CandOut.valueE.injEq] at h
          obtain ⟨rfl, rfl⟩ := h
          exact applyJumps_badLoc sys n0 l0 js l1 (by rw [hj])
        · simp at h
    · simp at h

theorem assembleOut_break (p : TPath) (nid : Nat) (loc : Int)
    (l2 : List (TPath × CandOut)) :
    ∀ l1 : List (TPath × CandOut),
      (∀ x ∈ l1, x.2 = .skip ∨ ∃ st c, x.2 = .fire st c) →
      assembleOut (l1 ++ (p, .valueE nid loc) :: l2) =
        ((assembleOut l1).1, .valueErr nid loc) := by
  intro l1
  induction l1 with
  | nil => intro _; simp [assembleOut]
  | cons x rest ih =>
    intro hall
    have hx := hall x (by simp)
    have hrest : ∀ y ∈ rest, y.2 = .skip ∨ ∃ st c, y.2 = .fire st c :=
      fun y hy => hall y (by simp [hy])
    rcases x with ⟨q, o⟩
    rcases hx with hx | ⟨st, c, hx⟩
    · simp only at hx
      subst hx
      simp only [List.cons_append, assembleOut]
      exact ih hrest
    · simp only at hx
      subst hx
      have hih := ih hrest
      simp only [List.cons_append, assembleOut, List.append_eq, hih]

/-- C4: if a reached candidate's jump outcome assigns an out-of-range
location index to some node, the whole `succ` run ends with the
`ValueError` naming that node index and location index, no later
candidate is tried (the events are exactly those of the earlier
candidates), and the live state afterwards is the prior state `old`,
with no partial writes from the offending outcome. -/
theorem succ_invalid_jump_aborts (sys : Sys) (old s : List Nat)
    (td pre post : List TPath) (p : TPath) (nid : Nat) (loc : Int)
    (hs : s.length = old.length)
    (htd : todoOf sys s = some td)
    (hsplit : td = pre ++ p :: post)
    (hpre : ∀ q ∈ pre, evalCand sys s q = .skip ∨
      ∃ st c, evalCand sys s q = .fire st c)
    (hp : evalCand sys s p = .valueE nid loc) :
    (succPy sys old (some s)).fin = .valueErr nid loc ∧
    (succPy sys old (some s)).live = old ∧
    (succPy sys old (some s)).events =
      (assembleOut (pre.map fun q => (q, evalCand sys s q))).1 ∧
    ∃ node, sys.nodes[nid]? = some node ∧
      ¬(0 ≤ loc ∧ loc < (node.locations.length : Int)) := by
  have hrw := succPy_eq_spec sys old s hs
  have hmap : td.map (fun q => (q, evalCand sys s q)) =
      (pre.map fun q => (q, evalCand sys s q)) ++
        (p, .valueE nid loc) :: (post.map fun q => (q, evalCand sys s q)) := by
    subst hsplit
    simp [hp]
  have hallpre : ∀ x ∈ pre.map (fun q => (q, evalCand sys s q)),
      x.2 = .skip ∨ ∃ st c, x.2 = .fire st c := by
    intro x hx
    rcases List.mem_map.mp hx with ⟨q, hq, rfl⟩
    exact hpre q hq
  have hbreak := assembleOut_break p nid loc
    (post.map fun q => (q, evalCand sys s q))
    (pre.map fun q => (q, evalCand sys s q)) hallpre
  have hne : td.isEmpty = false := by
    subst hsplit; cases pre <;> simp
  have hspec : succSpec sys old s =
      ⟨(assembleOut (pre.map fun q => (q, evalCand sys s q))).1,
       .valueErr nid loc, old⟩ := by
    unfold succSpec
    rw [htd]
    simp only [hmap, hbreak, hne]
    simp
  rw [hrw, hspec]
  exact ⟨rfl, rfl, rfl, evalCand_valueE sys s p nid loc hp⟩

theorem succ_invalid_jump_aborts_witness :
    (([0] : List Nat).length = ([0] : List Nat).length ∧
     todoOf ⟨[⟨[], [⟨[⟨0, fun _ => ([], .jumpRaised [(0, 5)])⟩]⟩]⟩]⟩ [0] =
       some [⟨0, 0, 0⟩] ∧
     evalCand ⟨[⟨[], [⟨[⟨0, fun _ => ([], .jumpRaised [(0, 5)])⟩]⟩]⟩]⟩ [0]
       ⟨0, 0, 0⟩ = .valueE 0 5) ∧
    (succPy ⟨[⟨[], [⟨[⟨0, fun _ => ([], .jumpRaised [(0, 5)])⟩]⟩]⟩]⟩ [0]
       (some [0])).fin = .valueErr 0 5 ∧
    (succPy ⟨[⟨[], [⟨[⟨0, fun _ => ([], .jumpRaised [(0, 5)])⟩]⟩]⟩]⟩ [0]
       (some [0])).live = [0] :=
  ⟨⟨rfl, rfl, rfl⟩,
   (succ_invalid_jump_aborts
     ⟨[⟨[], [⟨[⟨0, fun _ => ([], .jumpRaised [(0, 5)])⟩]⟩]⟩]⟩
     [0] [0] [⟨0, 0, 0⟩] [] [] ⟨0, 0, 0⟩ 0 5 rfl rfl rfl
     (by intro q hq; simp at hq) rfl).1,
   (succ_invalid_jump_aborts
     ⟨[⟨[], [⟨[⟨0, fun _ => ([], .jumpRaised [(0, 5)])⟩]⟩]⟩]⟩
     [0] [0] [⟨0, 0, 0⟩] [] [] ⟨0, 0, 0⟩ 0 5 rfl rfl rfl
     (by intro q hq; simp at hq) rfl).2.1⟩

/-- The two-node system of the `examples/jump.py` scenario, reduced to
its jump behaviour: each node's location 0 has one transition whose
action raises `Jump` with assignments sending nodes 0 and 1 to their
location 0 (both in range) and intended cost 0. -/
def jumpSys : Sys :=
  ⟨[⟨[1], [⟨[⟨1, fun _ => ([], .jumpRaised [(0, 0), (1, 0)])⟩]⟩, ⟨[]⟩]⟩,
    ⟨[0], [⟨[⟨1, fun _ => ([], .jumpRaised [(0, 0), (1, 0)])⟩]⟩, ⟨[]⟩]⟩]⟩

/-- C3 (evaluation at the failing input): the `Jump` class of
`src/hyena/__init__.py` carries only `jumps`, never a `cost` attribute,
so even a jump whose assignments are all in range (here nodes 0 and 1 to
location 0, locations count 2) makes `succ` fail with the
AttributeError from `jmp.cost` instead of yielding the event
`(state, path, 0)` the claim describes: the run produces no event at
all and ends in `attrErr`, with the live state restored. -/
theorem succ_jump_cost_missing :
    (applyJumps jumpSys [0, 0] [(0, 0), (1, 0)]).2 = none ∧
    succPy jumpSys [0, 0] (some [0, 0]) = ⟨[], .attrErr, [0, 0]⟩ :=
  ⟨rfl, rfl⟩

/-! Embedding of the worklist `Explorer` from `src/hyena/reach.py`.

The explorer is generic in the state type `σ` (for the ena family,
`σ = List Nat`) and the transition-path type `π`, and is parameterized
by the successor function `f` it calls (`tuple(self.system.succ(state))`
of a system whose `succ` runs without error) and by the compiled
properties. -/

section Explorer

variable {σ π : Type} [DecidableEq σ]

/-- Ordered-dict lookup: `none` when the key is absent. -/
def mlookup : List (σ × α) → σ → Option α
  | [], _ => none
  | (k, v) :: rest, x => if k = x then some v else mlookup rest x

/-- Ordered-dict assignment `d[k] = v`: replaces the value at the first
occurrence of the key, keeping its position, or appends a new entry. -/
def mset : List (σ × α) → σ → α → List (σ × α)
  | [], k, v => [(k, v)]
  | (k0, v0) :: rest, k, v =>
    if k0 = k then (k0, v) :: rest else (k0, v0) :: mset rest k v

/-- The keys of an ordered dict, in insertion order. -/
def mkeys (m : List (σ × α)) : List σ :=
  m.map Prod.fst

/-- Embeds `dict(pairs)`: the pairs are inserted left to right. -/
def dictOf (l : List (σ × α)) : List (σ × α) :=
  l.foldl (fun m kv => mset m kv.1 kv.2) []

/-- The mutable state of an `Explorer`: the visited map `self.succ`
(value `none` is the pending marker inserted on enqueue) and the
worklist `self.todo`. -/
structure Expl (σ π : Type) where
  succm : List (σ × Option (List (σ × π × Int)))
  todo : List σ

/-- The explorer as constructed: empty visited map, worklist holding the
initial state. -/
def expl0 (init : σ) : Expl σ π :=
  ⟨[], [init]⟩

/-- A compiled property: evaluating it on the system holding a state
either returns its boolean value or raises (`none`). -/
def Prp (σ : Type) : Type := σ → Option Bool

/-- Evaluates the compiled properties in declaration order on the popped
state, as `Explorer.__iter__` does, and reports the first failure: the
property source together with `true` when it raised while evaluating
(`AssertFailed(src, state, err)`) and `false` when it evaluated falsy
(`AssertFailed(src, state)`). -/
def firstFail : List (String × Prp σ) → σ → Option (String × Bool)
  | [], _ => none
  | (src, prp) :: rest, x =>
    match prp x with
    | none => some (src, true)
    | some false => some (src, false)
    | some true => firstFail rest x

/-- Pops the next state: `todo.pop()` (right end) in depth-first mode,
`todo.popleft()` otherwise. -/
def popTodo (depth : Bool) (todo : List σ) : Option (σ × List σ) :=
  if depth then
    match todo.getLast? with
    | none => none
    | some x => some (x, todo.dropLast)
  else
    match todo with
    | [] => none
    | x :: rest => some (x, rest)

/-- The enqueue guard `self.limit is None or len(self) < self.limit`. -/
def limitOk (limit : Option Nat) (n : Nat) : Bool :=
  match limit with
  | none => true
  | some k => decide (n < k)

/-- Processes one resulting state of the freshly expanded state: if it
is not a key of the visited map and the limit allows, it is appended to
the worklist and marked pending.  Also logs the enqueue. -/
def enqOne (limit : Option Nat) (acc : Expl σ π × List σ) (s : σ) :
    Expl σ π × List σ :=
  if (mlookup acc.1.succm s).isNone ∧ limitOk limit acc.1.succm.length then
    (⟨mset acc.1.succm s none, acc.1.todo ++ [s]⟩, acc.2 ++ [s])
  else
    acc

/-- Processes all resulting states of an expansion, left to right. -/
def enqAll (limit : Option Nat) (e : Expl σ π) (ss : List σ) :
    Expl σ π × List σ :=
  ss.foldl (enqOne limit) (e, [])

/-- Result of one iteration of the `while self.todo` loop. -/
inductive StepRes (σ π : Type) where
  | done : StepRes σ π
  | failed : String → σ → Bool → Expl σ π → StepRes σ π
  | yielded : σ → List (σ × π × Int) → List σ → Expl σ π → StepRes σ π

/-- The expansion of a popped state `st`: record `self.succ[state] =
succ` and run the enqueue loop over the resulting states.  Returns the
explorer after the iteration and the list of enqueued states. -/
def expand (f : σ → List (σ × π × Int)) (limit : Option Nat)
    (e : Expl σ π) (st : σ) (todo1 : List σ) : Expl σ π × List σ :=
  enqAll limit ⟨mset e.succm st (some (f st)), todo1⟩
    ((f st).map (fun t => t.1))

/-- One iteration of `Explorer.__iter__`: pop a state, evaluate the
properties in order (a failure raises `AssertFailed` and leaves the
visited map untouched), otherwise compute and record its successors and
enqueue the unseen resulting states under the limit. -/
def stepE (f : σ → List (σ × π × Int)) (props : List (String × Prp σ))
    (depth : Bool) (limit : Option Nat) (e : Expl σ π) : StepRes σ π :=
  match popTodo depth e.todo with
  | none => .done
  | some (st, todo1) =>
    match firstFail props st with
    | some (src, isRaise) => .failed src st isRaise ⟨e.succm, todo1⟩
    | none =>
      let r := expand f limit e st todo1
      .yielded st (f st) r.2 r.1

/-- How a bounded run of the iteration ended. -/
inductive RunEnd (σ : Type) where
  | finished : RunEnd σ
  | outOfFuel : RunEnd σ
  | failedEnd : String → σ → Bool → RunEnd σ

/-- The log of a bounded run: the states expanded (successors computed
and recorded), the states enqueued during the run, the final explorer,
and how the run ended. -/
structure RunLog (σ π : Type) where
  expanded : List σ
  enqueued : List σ
  finE : Expl σ π
  status : RunEnd σ

/-- Runs up to `fuel` iterations of `Explorer.__iter__`. -/
def runE (f : σ → List (σ × π × Int)) (props : List (String × Prp σ))
    (depth : Bool) (limit : Option Nat) :
    Nat → Expl σ π → RunLog σ π
  | 0, e => ⟨[], [], e, .outOfFuel⟩
  | fuel + 1, e =>
    match stepE f props depth limit e with
    | .done => ⟨[], [], e, .finished⟩
    | .failed src st isR e2 => ⟨[], [], e2, .failedEnd src st isR⟩
    | .yielded st _ enq e2 =>
      let r := runE f props depth limit fuel e2
      ⟨st :: r.expanded, enq ++ r.enqueued, r.finE, r.status⟩

/-- One step of the recorded transition relation: `y` is a resulting
state of expanding `x`. -/
def edgeOf (f : σ → List (σ × π × Int)) (x y : σ) : Prop :=
  ∃ p c, (y, p, c) ∈ f x

/-- Reachability from the initial state through the successor
function. -/
def Reach (f : σ → List (σ × π × Int)) (init s : σ) : Prop :=
  Relation.ReflTransGen (edgeOf f) init s

theorem mlookup_mset {α : Type} (m : List (σ × α)) (k x : σ) (v : α) :
    mlookup (mset m k v) x = if k = x then some v else mlookup m x := by
  induction m with
  | nil =>
    by_cases hx : k = x <;> simp [mset, mlookup, hx]
  | cons e rest ih =>
    rcases e with ⟨k0, v0⟩
    by_cases h0 : k0 = k
    · subst h0
      by_cases hx : k0 = x <;> simp [mset, mlookup, hx]
    · by_cases hx : k0 = x
      · subst hx
        have hkx : ¬(k = k0) := fun h => h0 h.symm
        simp [mset, h0, mlookup, hkx]
      · simp [mset, h0, mlookup, hx, ih]

theorem mlookup_none_iff {α : Type} (m : List (σ × α)) (x : σ) :
    mlookup m x = none ↔ x ∉ mkeys m := by
  induction m with
  | nil => simp [mlookup, mkeys]
  | cons e rest ih =>
    rcases e with ⟨k0, v0⟩
    by_cases hx : k0 = x
    · subst hx
      simp [mlookup, mkeys]
    · have hx2 : ¬(x = k0) := fun hc => hx hc.symm
      simp only [mlookup, if_neg hx, mkeys, List.map_cons, List.mem_cons]
      rw [ih]
      constructor
      · intro h hc
        rcases hc with hc | hc
        · exact hx2 hc
        · exact h hc
      · intro h hc
        exact h (Or.inr hc)

theorem mlookup_isSome_iff {α : Type} (m : List (σ × α)) (x : σ) :
    (mlookup m x).isSome ↔ x ∈ mkeys m := by
  rcases h : mlookup m x with _ | v
  · simp [(mlookup_none_iff m x).mp h]
  · simp only [Option.isSome_some, true_iff]
    by_contra hc
    have h2 := (mlookup_none_iff m x).mpr hc
    rw [h] at h2
    exact absurd h2 (by simp)

theorem mkeys_mset_mem {α : Type} {m : List (σ × α)} {k : σ} (v : α)
    (h : k ∈ mkeys m) : mkeys (mset m k v) = mkeys m := by
  induction m with
  | nil => simp [mkeys] at h
  | cons e rest ih =>
    rcases e with ⟨k0, v0⟩
    by_cases h0 : k0 = k
    · simp [mset, h0, mkeys]
    · have h1 : k ∈ mkeys rest := by
        simp only [mkeys, List.map_cons, List.mem_cons] at h
        rcases h with h | h
        · exact absurd h.symm h0
        · exact h
      simp only [mset, if_neg h0]
      show k0 :: mkeys (mset rest k v) = k0 :: mkeys rest
      rw [ih h1]

theorem mkeys_mset_not_mem {α : Type} {m : List (σ × α)} {k : σ} (v : α)
    (h : k ∉ mkeys m) : mkeys (mset m k v) = mkeys m ++ [k] := by
  induction m with
  | nil => simp [mset, mkeys]
  | cons e rest ih =>
    rcases e with ⟨k0, v0⟩
    simp only [mkeys, List.map_cons, List.mem_cons] at h
    push_neg at h
    have h0 : ¬(k0 = k) := fun hc => h.1 hc.symm
    simp only [mset, if_neg h0]
    show k0 :: mkeys (mset rest k v) = (k0 :: mkeys rest) ++ [k]
    rw [ih h.2]
    rfl

/-- Full behaviour of the enqueue loop over the resulting states of one
expansion: some sublist `new` of fresh states is appended to the
worklist, logged, and marked pending; everything else is untouched. -/
theorem enqAll_spec (limit : Option Nat) :
    ∀ (ss : List σ) (e : Expl σ π) (log : List σ),
      ∃ new : List σ,
        (ss.foldl (enqOne limit) (e, log)).2 = log ++ new ∧
        (ss.foldl (enqOne limit) (e, log)).1.todo = e.todo ++ new ∧
        mkeys (ss.foldl (enqOne limit) (e, log)).1.succm =
          mkeys e.succm ++ new ∧
        new.Nodup ∧
        (∀ s ∈ new, s ∈ ss ∧ mlookup e.succm s = none ∧
          mlookup (ss.foldl (enqOne limit) (e, log)).1.succm s = some none) ∧
        (∀ x v, mlookup e.succm x = some v →
          mlookup (ss.foldl (enqOne limit) (e, log)).1.succm x = some v) ∧
        (∀ x v,
          mlookup (ss.foldl (enqOne limit) (e, log)).1.succm x = some v →
          mlookup e.succm x = some v ∨ (v = none ∧ x ∈ new)) ∧
        (limit = none → ∀ s ∈ ss,
          s ∈ mkeys (ss.foldl (enqOne limit) (e, log)).1.succm) := by
  intro ss
  induction ss with
  | nil =>
    intro e log
    exact ⟨[], by simp, by simp, by simp, by simp, by simp,
      fun x v h => h, fun x v h => Or.inl h, by simp⟩
  | cons s0 ss ih =>
    intro e log
    by_cases hg : (mlookup e.succm s0).isNone ∧
        limitOk limit e.succm.length
    · -- s0 is enqueued
      have hfold : (s0 :: ss).foldl (enqOne limit) (e, log) =
          ss.foldl (enqOne limit)
            (⟨mset e.succm s0 none, e.todo ++ [s0]⟩, log ++ [s0]) := by
        simp [List.foldl_cons, enqOne, hg]
      have habs : s0 ∉ mkeys e.succm := by
        have := hg.1
        rw [Option.isNone_iff_eq_none] at this
        exact (mlookup_none_iff e.succm s0).mp this
      obtain ⟨new, h1, h2, h3, h4, h5, h6, h7, h8⟩ :=
        ih ⟨mset e.succm s0 none, e.todo ++ [s0]⟩ (log ++ [s0])
      have hkeys1 : mkeys (mset e.succm s0 none) = mkeys e.succm ++ [s0] :=
        mkeys_mset_not_mem none habs
      have hlks0 : mlookup (mset e.succm s0 none) s0 = some none := by
        rw [mlookup_mset]; simp
      refine ⟨s0 :: new, ?_, ?_, ?_, ?_, ?_, ?_, ?_, ?_⟩
      · rw [hfold, h1]; simp
      · rw [hfold, h2]; simp
      · rw [hfold, h3, hkeys1]; simp
      · have hs0new : s0 ∉ new := by
          intro hc
          have := (h5 s0 hc).2.1
          rw [hlks0] at this
          exact absurd this (by simp)
        exact List.Nodup.cons hs0new h4
      · intro s hs
        rcases List.mem_cons.mp hs with rfl | hs
        · refine ⟨by simp, ?_, ?_⟩
          · rw [Option.isNone_iff_eq_none] at hg; exact hg.1
          · rw [hfold]
            exact h6 s none hlks0
        · obtain ⟨hss, hnone, hmark⟩ := h5 s hs
          refine ⟨by simp [hss], ?_, by rw [hfold]; exact hmark⟩
          rw [mlookup_mset] at hnone
          by_cases hcs : s0 = s
          · simp [hcs] at hnone
          · rw [if_neg hcs] at hnone; exact hnone
      · intro x v hx
        rw [hfold]
        refine h6 x v ?_
        rw [mlookup_mset]
        by_cases hcs : s0 = x
        · subst hcs
          rw [(mlookup_none_iff e.succm s0).mpr habs] at hx
          exact absurd hx (by simp)
        · rw [if_neg hcs]; exact hx
      · intro x v hx
        rw [hfold] at hx
        rcases h7 x v hx with h | ⟨rfl, hmem⟩
        · by_cases hcs : s0 = x
          · subst hcs
            rw [mlookup_mset, if_pos rfl] at h
            exact Or.inr ⟨(Option.some_inj.mp h).symm, by simp⟩
          · rw [mlookup_mset, if_neg hcs] at h
            exact Or.inl h
        · exact Or.inr ⟨rfl, by simp [hmem]⟩
      · intro hlim s hs
        rcases List.mem_cons.mp hs with rfl | hs
        · rw [hfold, h3, hkeys1]
          simp
        · rw [hfold]
          exact h8 hlim s hs
    · -- s0 is skipped
      have hfold : (s0 :: ss).foldl (enqOne limit) (e, log) =
          ss.foldl (enqOne limit) (e, log) := by
        simp only [List.foldl_cons, enqOne]
        rw [if_neg hg]
      obtain ⟨new, h1, h2, h3, h4, h5, h6, h7, h8⟩ := ih e log
      refine ⟨new, by rw [hfold]; exact h1, by rw [hfold]; exact h2,
        by rw [hfold]; exact h3, h4, ?_, ?_, ?_, ?_⟩
      · intro s hs
        obtain ⟨hss, hb, hc⟩ := h5 s hs
        exact ⟨by simp [hss], hb, by rw [hfold]; exact hc⟩
      · intro x v hx
        rw [hfold]; exact h6 x v hx
      · intro x v hx
        rw [hfold] at hx; exact h7 x v hx
      · intro hlim s hs
        rcases List.mem_cons.mp hs with rfl | hs
        · subst hlim
          have : ¬(mlookup e.succm s).isNone := by
            intro hc
            exact hg ⟨hc, by simp [limitOk]⟩
          rw [Option.isNone_iff_eq_none] at this
          have hksome : s ∈ mkeys e.succm := by
            by_contra hc
            exact this ((mlookup_none_iff e.succm s).mpr hc)
          rw [hfold, h3]
          simp [hksome]
        · rw [hfold]
          exact h8 hlim s hs

theorem popTodo_none_iff (depth : Bool) (todo : List σ) :
    popTodo depth todo = none ↔ todo = [] := by
  constructor
  · intro h
    cases depth
    · rcases todo with _ | ⟨x, rest⟩
      · rfl
      · simp [popTodo] at h
    · rcases hg : todo.getLast? with _ | x
      · exact List.getLast?_eq_none_iff.mp hg
      · simp [popTodo, hg] at h
  · intro h
    subst h
    cases depth <;> rfl

theorem popTodo_eq (depth : Bool) (todo todo1 : List σ) (st : σ)
    (h : popTodo depth todo = some (st, todo1)) :
    todo = st :: todo1 ∨ todo = todo1 ++ [st] := by
  cases depth
  · rcases todo with _ | ⟨x, rest⟩
    · simp [popTodo] at h
    · simp [popTodo] at h
      left
      rw [h.1, h.2]
  · rcases hg : todo.getLast? with _ | x
    · simp [popTodo, hg] at h
    · simp [popTodo, hg] at h
      right
      rw [← h.2, ← h.1]
      exact (List.dropLast_append_getLast? x hg).symm

/-- The invariant maintained by the explorer iteration: keys and
worklist are duplicate-free, worklist states are pending markers (except
in the freshly constructed explorer), pending markers are on the
worklist, every recorded or queued state is reachable, recorded
successor lists are those returned by `f` and (without a limit) their
resulting states are recorded, and the initial state is recorded or
queued. -/
def ExInv (f : σ → List (σ × π × Int)) (init : σ) (limit : Option Nat)
    (e : Expl σ π) : Prop :=
  (mkeys e.succm).Nodup ∧
  e.todo.Nodup ∧
  ((∀ s ∈ e.todo, mlookup e.succm s = some none) ∨
    (e.todo = [init] ∧ e.succm = [])) ∧
  (∀ s, mlookup e.succm s = some none → s ∈ e.todo) ∧
  (∀ s ∈ mkeys e.succm, Reach f init s) ∧
  (∀ s ∈ e.todo, Reach f init s) ∧
  (∀ x l, mlookup e.succm x = some (some l) →
    l = f x ∧ (limit = none → ∀ t ∈ l, t.1 ∈ mkeys e.succm)) ∧
  (init ∈ mkeys e.succm ∨ init ∈ e.todo)

/-- Inversion of a yielded iteration. -/
theorem stepE_yielded_elim (f : σ → List (σ × π × Int))
    (props : List (String × Prp σ)) (depth : Bool) (limit : Option Nat)
    (e e2 : Expl σ π) (st : σ) (succs : List (σ × π × Int)) (enq : List σ)
    (h : stepE f props depth limit e = .yielded st succs enq e2) :
    ∃ todo1, popTodo depth e.todo = some (st, todo1) ∧
      firstFail props st = none ∧ succs = f st ∧
      expand f limit e st todo1 = (e2, enq) := by
  unfold stepE at h
  rcases hpop : popTodo depth e.todo with _ | ⟨st0, todo1⟩
  · rw [hpop] at h; exact absurd h (by simp)
  · simp only [hpop] at h
    rcases hff : firstFail props st0 with _ | fl
    · simp only [hff] at h
      simp only [StepRes.yielded.injEq] at h
      obtain ⟨h1, h2, h3, h4⟩ := h
      refine ⟨todo1, ?_, ?_, ?_, ?_⟩
      · rw [← h1]
      · rw [← h1]; exact hff
      · rw [← h1]; exact h2.symm
      · rw [← h1, ← h3, ← h4]
    · simp only [hff] at h
      exact absurd h (by simp)

/-- Inversion of a failed iteration: the visited map is untouched. -/
theorem stepE_failed_elim (f : σ → List (σ × π × Int))
    (props : List (String × Prp σ)) (depth : Bool) (limit : Option Nat)
    (e e2 : Expl σ π) (src : String) (st : σ) (isR : Bool)
    (h : stepE f props depth limit e = .failed src st isR e2) :
    ∃ todo1, popTodo depth e.todo = some (st, todo1) ∧
      firstFail props st = some (src, isR) ∧ e2 = ⟨e.succm, todo1⟩ := by
  unfold stepE at h
  rcases hpop : popTodo depth e.todo with _ | ⟨st0, todo1⟩
  · rw [hpop] at h; exact absurd h (by simp)
  · simp only [hpop] at h
    rcases hff : firstFail props st0 with _ | ⟨src0, isR0⟩
    · simp only [hff] at h
      exact absurd h (by simp)
    · simp only [hff] at h
      simp only [StepRes.failed.injEq] at h
      obtain ⟨h1, h2, h3, h4⟩ := h
      refine ⟨todo1, ?_, ?_, h4.symm⟩
      · rw [← h2]
      · rw [← h1, ← h2, ← h3]; exact hff

theorem expand_inv (f : σ → List (σ × π × Int)) (limit : Option Nat)
    (init : σ) (e : Expl σ π) (depth : Bool) (st : σ) (todo1 : List σ)
    (E : Expl σ π) (enq : List σ)
    (hinv : ExInv f init limit e)
    (hpop : popTodo depth e.todo = some (st, todo1))
    (hE : expand f limit e st todo1 = (E, enq)) :
    ExInv f init limit E ∧
    (mlookup e.succm st = none ∨ mlookup e.succm st = some none) ∧
    mlookup E.succm st = some (some (f st)) ∧
    (∀ x l, mlookup e.succm x = some (some l) →
      mlookup E.succm x = some (some l)) ∧
    (∀ x ∈ mkeys e.succm, x ∈ mkeys E.succm) ∧
    enq.Nodup ∧
    (∀ s ∈ enq, mlookup e.succm s = none ∧ s ≠ st ∧
      mlookup E.succm s = some none) := by
  obtain ⟨hkN, htN, hmk, hmt, hrk, hrt, hcl, hini⟩ := hinv
  -- basic facts about the popped state
  have hdecomp := popTodo_eq depth e.todo todo1 st hpop
  have hstmem : st ∈ e.todo := by
    rcases hdecomp with hd | hd <;> rw [hd] <;> simp
  have htodo1sub : ∀ s ∈ todo1, s ∈ e.todo := by
    intro s hs
    rcases hdecomp with hd | hd <;> rw [hd] <;> simp [hs]
  have htodo1nodup : todo1.Nodup ∧ st ∉ todo1 := by
    rcases hdecomp with hd | hd <;> rw [hd] at htN
    · exact ⟨htN.of_cons, (List.nodup_cons.mp htN).1⟩
    · have := List.nodup_append.mp htN
      refine ⟨this.1, fun hc => ?_⟩
      exact this.2.2 hc (by simp)
  have hstfresh : mlookup e.succm st = none ∨
      mlookup e.succm st = some none := by
    rcases hmk with hmk | ⟨_, hemp⟩
    · exact Or.inr (hmk st hstmem)
    · rw [hemp]; exact Or.inl rfl
  have htodo1mark : ∀ s ∈ todo1, mlookup e.succm s = some none := by
    rcases hmk with hmk | ⟨hte, _⟩
    · intro s hs; exact hmk s (htodo1sub s hs)
    · intro s hs
      exfalso
      have h1 : todo1 = [] := by
        rcases todo1 with _ | ⟨a, b⟩
        · rfl
        · exfalso
          rcases hdecomp with hd | hd <;> rw [hd] at hte <;>
            exact absurd (congrArg List.length hte) (by simp)
      rw [h1] at hs; simp at hs
  -- the map after recording the expansion
  set m1 : List (σ × Option (List (σ × π × Int))) :=
    mset e.succm st (some (f st)) with hm1
  have hm1st : mlookup m1 st = some (some (f st)) := by
    rw [hm1, mlookup_mset, if_pos rfl]
  have hm1other : ∀ x, x ≠ st → mlookup m1 x = mlookup e.succm x := by
    intro x hx
    rw [hm1, mlookup_mset, if_neg (fun hc => hx hc.symm)]
  have hm1keysN : (mkeys m1).Nodup := by
    by_cases hmem : st ∈ mkeys e.succm
    · rw [hm1, mkeys_mset_mem _ hmem]; exact hkN
    · rw [hm1, mkeys_mset_not_mem _ hmem]
      simpa [List.nodup_append] using ⟨hkN, hmem⟩
  have hm1keys_sup : ∀ x ∈ mkeys e.succm, x ∈ mkeys m1 := by
    intro x hx
    by_cases hmem : st ∈ mkeys e.succm
    · rw [hm1, mkeys_mset_mem _ hmem]; exact hx
    · rw [hm1, mkeys_mset_not_mem _ hmem]; simp [hx]
  have hm1keys_st : st ∈ mkeys m1 := by
    rw [← mlookup_isSome_iff, hm1st]
    rfl
  have hm1back : ∀ x v, mlookup m1 x = some v →
      (x = st ∧ v = some (f st)) ∨ mlookup e.succm x = some v := by
    intro x v hx
    by_cases hcs : x = st
    · subst hcs
      rw [hm1st] at hx
      exact Or.inl ⟨rfl, (Option.some_inj.mp hx).symm⟩
    · rw [hm1other x hcs] at hx
      exact Or.inr hx
  -- the enqueue pass
  obtain ⟨new, g1, g2, g3, g4, g5, g6, g7, g8⟩ :=
    enqAll_spec limit ((f st).map (fun t => t.1)) ⟨m1, todo1⟩ []
  have hEfold : ((f st).map (fun t => t.1)).foldl (enqOne limit)
      (⟨m1, todo1⟩, []) = (E, enq) := hE
  rw [hEfold] at g1 g2 g3 g5 g6 g7 g8
  dsimp only at g1 g2 g3 g5 g6 g7 g8
  have g1n : new = enq := by
    simpa using g1.symm
  subst g1n
  have he2t : E.todo = todo1 ++ new := g2
  have he2k : mkeys E.succm = mkeys m1 ++ new := g3
  have hmono2 : ∀ x v, mlookup m1 x = some v →
      mlookup E.succm x = some v := g6
  have hback2 : ∀ x v, mlookup E.succm x = some v →
      mlookup m1 x = some v ∨ (v = none ∧ x ∈ new) := g7
  have hnew : ∀ s ∈ new, s ∈ (f st).map (fun t => t.1) ∧
      mlookup m1 s = none ∧ mlookup E.succm s = some none := by
    intro s hs
    obtain ⟨ha, hb, hc⟩ := g5 s hs
    exact ⟨ha, hb, hc⟩
  have hnewN : new.Nodup := g4
  have he2st : mlookup E.succm st = some (some (f st)) :=
    hmono2 st _ hm1st
  have hmono : ∀ x l, mlookup e.succm x = some (some l) →
      mlookup E.succm x = some (some l) := by
    intro x l hx
    have hxst : x ≠ st := by
      intro hc
      subst hc
      rcases hstfresh with hf | hf <;> rw [hf] at hx <;> simp at hx
    exact hmono2 x _ (by rw [hm1other x hxst]; exact hx)
  have hkeysmono : ∀ x ∈ mkeys e.succm, x ∈ mkeys E.succm := by
    intro x hx
    rw [he2k]
    exact List.mem_append.mpr (Or.inl (hm1keys_sup x hx))
  have hnewfresh : ∀ s ∈ new, mlookup e.succm s = none ∧ s ≠ st := by
    intro s hs
    obtain ⟨_, hm1n, _⟩ := hnew s hs
    have hsne : s ≠ st := by
      intro hc
      subst hc
      rw [hm1st] at hm1n
      exact absurd hm1n (by simp)
    rw [hm1other s hsne] at hm1n
    exact ⟨hm1n, hsne⟩
  refine ⟨?_, hstfresh, he2st, hmono, hkeysmono, hnewN, ?_⟩
  swap
  · intro s hs
    obtain ⟨hfr, hne⟩ := hnewfresh s hs
    exact ⟨hfr, hne, (hnew s hs).2.2⟩
  -- the invariant for the new explorer
  have hnewnotm1 : ∀ s ∈ new, s ∉ mkeys m1 := by
    intro s hs
    obtain ⟨_, hm1n, _⟩ := hnew s hs
    exact (mlookup_none_iff m1 s).mp hm1n
  refine ⟨?_, ?_, ?_, ?_, ?_, ?_, ?_, ?_⟩
  · -- keys nodup
    rw [he2k, List.nodup_append]
    exact ⟨hm1keysN, hnewN, fun a ha hb => hnewnotm1 a hb ha⟩
  · -- todo nodup
    rw [he2t, List.nodup_append]
    refine ⟨htodo1nodup.1, hnewN, fun a ha hb => ?_⟩
    have := htodo1mark a ha
    obtain ⟨hfr, _⟩ := hnewfresh a hb
    rw [hfr] at this
    exact absurd this (by simp)
  · -- todo states are markers
    left
    intro s hs
    rw [he2t] at hs
    rcases List.mem_append.mp hs with hs | hs
    · have := htodo1mark s hs
      have hsne : s ≠ st := fun hc => htodo1nodup.2 (hc ▸ hs)
      exact hmono2 s none (by rw [hm1other s hsne]; exact this)
    · exact (hnew s hs).2.2
  · -- markers are on the todo list
    intro s hs
    rcases hback2 s none hs with hm | ⟨_, hm⟩
    · rcases hm1back s none hm with ⟨_, hc⟩ | hm
      · exact absurd hc (by simp)
      · have hmemtodo := hmt s hm
        have hsne : s ≠ st := by
          intro hc
          subst hc
          rw [hm1st] at hm
          exact absurd hm (by simp)
        rw [he2t]
        have hs2 : s ∈ todo1 := by
          rcases hdecomp with hd | hd <;> rw [hd] at hmemtodo
          · rcases List.mem_cons.mp hmemtodo with hc | hc
            · exact absurd hc hsne
            · exact hc
          · rcases List.mem_append.mp hmemtodo with hc | hc
            · exact hc
            · simp at hc
              exact absurd hc hsne
        exact List.mem_append.mpr (Or.inl hs2)
    · rw [he2t]
      exact List.mem_append.mpr (Or.inr hm)
  · -- recorded states are reachable
    intro s hs
    rw [he2k] at hs
    rcases List.mem_append.mp hs with hs | hs
    · by_cases hmem : st ∈ mkeys e.succm
      · rw [hm1, mkeys_mset_mem _ hmem] at hs
        exact hrk s hs
      · rw [hm1, mkeys_mset_not_mem _ hmem] at hs
        rcases List.mem_append.mp hs with hs | hs
        · exact hrk s hs
        · simp at hs
          subst hs
          exact hrt s hstmem
    · obtain ⟨hsf, _, _⟩ := hnew s hs
      rcases List.mem_map.mp hsf with ⟨t, ht, rfl⟩
      exact Relation.ReflTransGen.tail (hrt st hstmem)
        ⟨t.2.1, t.2.2, by simpa using ht⟩
  · -- queued states are reachable
    intro s hs
    rw [he2t] at hs
    rcases List.mem_append.mp hs with hs | hs
    · exact hrt s (htodo1sub s hs)
    · obtain ⟨hsf, _, _⟩ := hnew s hs
      rcases List.mem_map.mp hsf with ⟨t, ht, rfl⟩
      exact Relation.ReflTransGen.tail (hrt st hstmem)
        ⟨t.2.1, t.2.2, by simpa using ht⟩
  · -- recorded successor lists are faithful and (no limit) closed
    intro x l hx
    rcases hback2 x (some l) hx with hm | ⟨hc, _⟩
    · rcases hm1back x (some l) hm with ⟨rfl, hv⟩ | hm
      · have hl : l = f x := Option.some_inj.mp hv
        subst hl
        refine ⟨rfl, fun hlim t ht => ?_⟩
        have := g8 hlim t.1 (List.mem_map.mpr ⟨t, ht, rfl⟩)
        simpa [he2k] using this
      · obtain ⟨hfx, hclose⟩ := hcl x l hm
        refine ⟨hfx, fun hlim t ht => ?_⟩
        exact hkeysmono t.1 (hclose hlim t ht)
    · exact absurd hc (by simp)
  · -- the initial state is recorded or queued
    left
    rcases hini with hini | hini
    · exact hkeysmono init hini
    · by_cases hcs : init = st
      · subst hcs
        rw [he2k]
        exact List.mem_append.mpr (Or.inl hm1keys_st)
      · have hmem : init ∈ todo1 := by
          rcases hdecomp with hd | hd <;> rw [hd] at hini
          · rcases List.mem_cons.mp hini with hc | hc
            · exact absurd hc hcs
            · exact hc
          · rcases List.mem_append.mp hini with hc | hc
            · exact hc
            · simp at hc
              exact absurd hc hcs
        have hmark := htodo1mark init hmem
        have hk : init ∈ mkeys e.succm := by
          rw [← mlookup_isSome_iff, hmark]
          rfl
        exact hkeysmono init hk

theorem runE_facts (f : σ → List (σ × π × Int))
    (props : List (String × Prp σ)) (depth : Bool) (limit : Option Nat)
    (init : σ) :
    ∀ (fuel : Nat) (e : Expl σ π), ExInv f init limit e →
      (runE f props depth limit fuel e).expanded.Nodup ∧
      (∀ s ∈ (runE f props depth limit fuel e).expanded,
        mlookup e.succm s = none ∨ mlookup e.succm s = some none) ∧
      (runE f props depth limit fuel e).enqueued.Nodup ∧
      (∀ s ∈ (runE f props depth limit fuel e).enqueued,
        mlookup e.succm s = none) ∧
      (∀ x ∈ mkeys e.succm,
        x ∈ mkeys (runE f props depth limit fuel e).finE.succm) ∧
      (∀ s ∈ mkeys (runE f props depth limit fuel e).finE.succm,
        Reach f init s) ∧
      ((runE f props depth limit fuel e).status = .finished →
        ExInv f init limit (runE f props depth limit fuel e).finE ∧
        (runE f props depth limit fuel e).finE.todo = []) := by
  intro fuel
  induction fuel with
  | zero =>
    intro e hinv
    refine ⟨by simp [runE], by simp [runE], by simp [runE],
      by simp [runE], by simp [runE], ?_, ?_⟩
    · intro s hs
      exact hinv.2.2.2.2.1 s hs
    · intro hs
      simp [runE] at hs
  | succ fuel ih =>
    intro e hinv
    rcases hstep : stepE f props depth limit e with
      _ | ⟨src, st, isR, e2⟩ | ⟨st, succs, enq, e2⟩
    · -- done: the worklist is empty
      have hempty : e.todo = [] := by
        unfold stepE at hstep
        rcases hpop : popTodo depth e.todo with _ | pr
        · exact (popTodo_none_iff depth e.todo).mp hpop
        · rw [hpop] at hstep
          rcases hff : firstFail props pr.1 with _ | fl <;>
            simp only [hff, hpop] at hstep <;> exact absurd hstep (by simp)
      refine ⟨by simp [runE, hstep], by simp [runE, hstep],
        by simp [runE, hstep], by simp [runE, hstep],
        by simp [runE, hstep], ?_, ?_⟩
      · intro s hs
        simp only [runE, hstep] at hs
        exact hinv.2.2.2.2.1 s hs
      · intro _
        simp only [runE, hstep]
        exact ⟨hinv, hempty⟩
    · -- failed: the run stops, the visited map is untouched
      obtain ⟨todo1, hpop, hff, he2⟩ :=
        stepE_failed_elim f props depth limit e e2 src st isR hstep
      refine ⟨by simp [runE, hstep], by simp [runE, hstep],
        by simp [runE, hstep], by simp [runE, hstep], ?_, ?_, ?_⟩
      · intro x hx
        simp only [runE, hstep]
        rw [he2]
        exact hx
      · intro s hs
        simp only [runE, hstep] at hs
        rw [he2] at hs
        exact hinv.2.2.2.2.1 s hs
      · intro hs
        simp only [runE, hstep] at hs
        exact absurd hs (by simp)
    · -- yielded: one expansion, then the rest of the run
      obtain ⟨todo1, hpop, hff, hsuccs, hE⟩ :=
        stepE_yielded_elim f props depth limit e e2 st succs enq hstep
      obtain ⟨hinv2, hstfresh, hst2, hmono, hkmono, henqN, henq⟩ :=
        expand_inv f limit init e depth st todo1 e2 enq hinv hpop hE
      obtain ⟨ih1, ih2, ih3, ih4, ih5, ih6, ih7⟩ := ih e2 hinv2
      have hrunE : runE f props depth limit (fuel + 1) e =
          ⟨st :: (runE f props depth limit fuel e2).expanded,
           enq ++ (runE f props depth limit fuel e2).enqueued,
           (runE f props depth limit fuel e2).finE,
           (runE f props depth limit fuel e2).status⟩ := by
        simp [runE, hstep]
      rw [hrunE]
      refine ⟨?_, ?_, ?_, ?_, ?_, ih6, ih7⟩
      · -- expanded states are pairwise distinct
        refine List.Nodup.cons ?_ ih1
        intro hc
        rcases ih2 st hc with hn | hn <;> rw [hst2] at hn <;> simp at hn
      · -- expanded states were unexpanded at the start
        intro s hs
        rcases List.mem_cons.mp hs with rfl | hs
        · exact hstfresh
        · rcases hlk : mlookup e.succm s with _ | v
          · exact Or.inl rfl
          · rcases v with _ | l
            · exact Or.inr rfl
            · exfalso
              have := hmono s l hlk
              rcases ih2 s hs with hn | hn <;> rw [this] at hn <;>
                simp at hn
      · -- enqueued states are pairwise distinct
        rw [List.nodup_append]
        refine ⟨henqN, ih3, fun a ha hb => ?_⟩
        have h1 := (henq a ha).2.2
        have h2 := ih4 a hb
        rw [h1] at h2
        exact absurd h2 (by simp)
      · -- enqueued states were unrecorded at the start
        intro s hs
        rcases List.mem_append.mp hs with hs | hs
        · exact (henq s hs).1
        · have h2 := ih4 s hs
          rcases hlk : mlookup e.succm s with _ | v
          · rfl
          · exfalso
            have hk : s ∈ mkeys e.succm := by
              rw [← mlookup_isSome_iff, hlk]
              rfl
            have hk2 : s ∈ mkeys e2.succm := hkmono s hk
            exact (mlookup_none_iff e2.succm s).mp h2 hk2
      · -- recorded states stay recorded
        intro x hx
        exact ih5 x (hkmono x hx)

/-- C6: over any bounded run of the Explorer iteration (complete,
stopped by fuel, or stopped by a property failure), no state is expanded
twice and no state is enqueued twice (the initial enqueue at
construction included); every recorded state is reachable from the
initial state; and when the iteration completes without error and no
limit is configured, the keys of the visited map are exactly the states
reachable from the initial state. -/
theorem explorer_no_duplicate_exploration (f : σ → List (σ × π × Int))
    (props : List (String × Prp σ)) (depth : Bool) (limit : Option Nat)
    (init : σ) (fuel : Nat) :
    (runE f props depth limit fuel (expl0 init)).expanded.Nodup ∧
    (init :: (runE f props depth limit fuel (expl0 init)).enqueued).Nodup ∧
    (∀ s ∈ mkeys (runE f props depth limit fuel (expl0 init)).finE.succm,
      Reach f init s) ∧
    ((runE f props depth limit fuel (expl0 init)).status = .finished →
      limit = none →
      ∀ s, s ∈ mkeys (runE f props depth limit fuel (expl0 init)).finE.succm
        ↔ Reach f init s) := by
  have hinv0 : ExInv f init limit (expl0 init : Expl σ π) := by
    refine ⟨by simp [expl0, mkeys], by simp [expl0], ?_, ?_, ?_, ?_, ?_, ?_⟩
    · right; exact ⟨rfl, rfl⟩
    · intro s hs
      simp [expl0, mlookup] at hs
    · intro s hs
      simp [expl0, mkeys] at hs
    · intro s hs
      simp [expl0] at hs
      subst hs
      exact Relation.ReflTransGen.refl
    · intro x l hx
      simp [expl0, mlookup] at hx
    · right; simp [expl0]
  obtain ⟨h1, h2, h3, h4, h5, h6, h7⟩ :=
    runE_facts f props depth limit init fuel (expl0 init) hinv0
  refine ⟨h1, ?_, h6, ?_⟩
  · -- no duplicate enqueues, the initial one included
    refine List.Nodup.cons ?_ h3
    -- the initial state is never enqueued during the run
    rcases hfuel : fuel with _ | fuel1
    · simp [runE]
    · rcases hstep : stepE f props depth limit (expl0 init : Expl σ π) with
        _ | ⟨src, st, isR, e2⟩ | ⟨st, succs, enq, e2⟩
      · simp [runE, hstep]
      · simp [runE, hstep]
      · obtain ⟨todo1, hpop, hff, hsuccs, hE⟩ :=
          stepE_yielded_elim f props depth limit (expl0 init) e2 st succs
            enq hstep
        have hst : st = init ∧ todo1 = [] := by
          cases depth <;> simp [popTodo, expl0] at hpop <;>
            exact ⟨hpop.1.symm, hpop.2⟩
        obtain ⟨hstinit, htodo1⟩ := hst
        subst htodo1
        obtain ⟨hinv2, _, hst2, _, _, _, henq⟩ :=
          expand_inv f limit init (expl0 init) depth st [] e2 enq hinv0
            hpop hE
        obtain ⟨_, _, _, jh4, _, _, _⟩ :=
          runE_facts f props depth limit init fuel1 e2 hinv2
        intro hc
        simp only [runE, hstep, hfuel] at hc
        rcases List.mem_append.mp (by simpa using hc) with hcm | hcm
        · exact (henq init hcm).2.1 hstinit.symm
        · have hj := jh4 init hcm
          rw [hstinit] at hst2
          rw [hj] at hst2
          exact absurd hst2 (by simp)
  · -- completion without limit: visited is exactly the reachable set
    intro hfin hlim
    obtain ⟨hinvF, htodoF⟩ := h7 hfin
    obtain ⟨fkN, ftN, fmk, fmt, frk, frt, fcl, fini⟩ := hinvF
    intro s
    constructor
    · intro hs
      exact frk s hs
    · intro hreach
      induction hreach with
      | refl =>
        rcases fini with h | h
        · exact h
        · rw [htodoF] at h
          simp at h
      | tail hr hedge ihr =>
        rename_i b c
        have hb := ihr
        have hlkb : (mlookup
            (runE f props depth limit fuel (expl0 init)).finE.succm
            b).isSome := by
          rw [mlookup_isSome_iff]
          exact hb
        rcases hlkv : mlookup
            (runE f props depth limit fuel (expl0 init)).finE.succm b with
          _ | v
        · rw [hlkv] at hlkb; simp at hlkb
        · rcases v with _ | l
          · exfalso
            have := fmt b hlkv
            rw [htodoF] at this
            simp at this
          · obtain ⟨hfl, hcls⟩ := fcl b l hlkv
            obtain ⟨p, cst, hmem⟩ := hedge
            have : ((c, p, cst) : σ × π × Int) ∈ l := by
              rw [hfl]; exact hmem
            exact hcls hlim ⟨c, p, cst⟩ this

end Explorer

theorem explorer_no_duplicate_exploration_witness :
    (runE (fun _ : Nat => ([] : List (Nat × Nat × Int))) [] false none 2
      (expl0 0)).expanded.Nodup ∧
    ((0 : Nat) ∈ mkeys (runE (fun _ : Nat => ([] : List (Nat × Nat × Int)))
        [] false none 2 (expl0 0)).finE.succm ↔
      Reach (fun _ : Nat => ([] : List (Nat × Nat × Int))) 0 0) :=
  ⟨(explorer_no_duplicate_exploration
      (fun _ : Nat => ([] : List (Nat × Nat × Int))) [] false none 0 2).1,
   (explorer_no_duplicate_exploration
      (fun _ : Nat => ([] : List (Nat × Nat × Int))) [] false none 0
      2).2.2.2 rfl rfl 0⟩

/-! Embedding of `Explorer.trace` from `src/hyena/reach.py`. -/

/-- One `Event` of a trace: the reached state, the transition rendered
from the recorded path (`none` only for the initial event), and its
cost. -/
structure TEvt (σ π : Type) where
  state : σ
  trans : Option π
  cost : Int
deriving DecidableEq

section Trace

variable {σ π : Type} [DecidableEq σ]

/-- Result of running `trace`: a returned list of events, a `KeyError`
(looking up a state absent from the visited map), a `TypeError`
(iterating the `None` pending marker of an unexpanded state), or
non-termination of the `while` loop (the embedding's fuel elapsed with
the loop state repeating). -/
inductive TraceRes (σ π : Type) where
  | ok : List (TEvt σ π) → TraceRes σ π
  | keyErr : TraceRes σ π
  | noneErr : TraceRes σ π
  | stuck : TraceRes σ π
deriving DecidableEq

/-- Result of one round of the breadth-first replay. -/
inductive RoundRes (σ π : Type) where
  | found : List (TEvt σ π) → RoundRes σ π
  | err : TraceRes σ π → RoundRes σ π
  | next : List (List (TEvt σ π)) → List σ → RoundRes σ π

/-- The inner loop `for s, t, c in self.succ[old[-1].state]`: each
recorded successor extends the path; the first one equal to the target
returns, unseen ones are added to `seen` and their paths to
`new_paths`. -/
def scanSuccs (target : σ) (old : List (TEvt σ π)) :
    List (σ × π × Int) → List (List (TEvt σ π)) → List σ →
    Option (List (TEvt σ π)) × List (List (TEvt σ π)) × List σ
  | [], nps, seen => (none, nps, seen)
  | (s, t, c) :: rest, nps, seen =>
    let new := old ++ [⟨s, some t, c⟩]
    if s = target then (some new, nps, seen)
    else if s ∈ seen then scanSuccs target old rest nps seen
    else scanSuccs target old rest (nps ++ [new]) (seen ++ [s])

/-- The loop `for old in old_paths`: looks up the recorded successor
list of each path's last state (a missing key is a `KeyError`, a pending
`None` marker a `TypeError`) and scans it. -/
def roundGo (m : List (σ × Option (List (σ × π × Int)))) (target : σ) :
    List (List (TEvt σ π)) → List (List (TEvt σ π)) → List σ →
    RoundRes σ π
  | [], nps, seen => .next nps seen
  | old :: rest, nps, seen =>
    match old.getLast? with
    | none => .err .keyErr
    | some lastEvt =>
      match mlookup m lastEvt.state with
      | none => .err .keyErr
      | some none => .err .noneErr
      | some (some l) =>
        match scanSuccs target old l nps seen with
        | (some found, _, _) => .found found
        | (none, nps2, seen2) => roundGo m target rest nps2 seen2

/-- The `while len(seen) < len(self.succ)` loop, bounded by fuel; when
the guard fails the Python code returns the empty list. -/
def traceLoop (m : List (σ × Option (List (σ × π × Int)))) (target : σ) :
    Nat → List (List (TEvt σ π)) → List σ → TraceRes σ π
  | 0, _, _ => .stuck
  | fuel + 1, old_paths, seen =>
    if seen.length < m.length then
      match roundGo m target old_paths [] seen with
      | .found l => .ok l
      | .err e => e
      | .next nps seen2 => traceLoop m target fuel nps seen2
    else .ok []

/-- Embeds `Explorer.trace(state)` over a recorded visited map `m` with
initial state `init`: the target equal to the initial state returns the
one-event initial trace at once, otherwise the breadth-first replay
runs. -/
def pyTrace (m : List (σ × Option (List (σ × π × Int)))) (init target : σ)
    (fuel : Nat) : TraceRes σ π :=
  if target = init then .ok [⟨init, none, 0⟩]
  else traceLoop m target fuel [[⟨init, none, 0⟩]] [init]

/-- Paths of exactly `n` recorded edges from `init`, over the edges of
the visited map `m`. -/
inductive HasPathN (m : List (σ × Option (List (σ × π × Int)))) (init : σ) :
    Nat → σ → Prop where
  | refl : HasPathN m init 0 init
  | step : ∀ {n : Nat} {x y : σ} {p : π} {c : Int}
      {l : List (σ × π × Int)},
      HasPathN m init n x → mlookup m x = some (some l) →
      (y, p, c) ∈ l → HasPathN m init (n + 1) y

/-- The state is within recorded distance `r` of the initial state. -/
def distLE (m : List (σ × Option (List (σ × π × Int)))) (init : σ)
    (r : Nat) (x : σ) : Prop :=
  ∃ n, n ≤ r ∧ HasPathN m init n x

/-- The state's least recorded distance is exactly `r`. -/
def FrontAt (m : List (σ × Option (List (σ × π × Int)))) (init : σ)
    (r : Nat) (x : σ) : Prop :=
  HasPathN m init r x ∧ ∀ k, k < r → ¬ HasPathN m init k x

/-- A well-formed replay path of round `r` ending at `x`: `r + 1`
events, starting with the initial event, ending at `x`. -/
def PathOk (init : σ) (r : Nat) (p : List (TEvt σ π)) (x : σ) : Prop :=
  p.length = r + 1 ∧ p.head? = some ⟨init, none, 0⟩ ∧
  ∃ ev : TEvt σ π, p.getLast? = some ev ∧ ev.state = x

theorem hasPathN_zero (m : List (σ × Option (List (σ × π × Int))))
    (init x : σ) (h : HasPathN m init 0 x) : x = init := by
  cases h
  rfl

theorem hasPathN_succ_elim (m : List (σ × Option (List (σ × π × Int))))
    (init y : σ) (n : Nat) (h : HasPathN m init (n + 1) y) :
    ∃ (x : σ) (p : π) (c : Int) (l : List (σ × π × Int)),
      HasPathN m init n x ∧ mlookup m x = some (some l) ∧
      (y, p, c) ∈ l := by
  cases h with
  | step hx hl hm => exact ⟨_, _, _, _, hx, hl, hm⟩

theorem hasPathN_min (m : List (σ × Option (List (σ × π × Int))))
    (init : σ) :
    ∀ (n : Nat) (x : σ), HasPathN m init n x →
      ∃ d, d ≤ n ∧ FrontAt m init d x := by
  intro n
  induction n using Nat.strong_induction_on with
  | _ n ih =>
    intro x hx
    by_cases hmin : ∀ k, k < n → ¬ HasPathN m init k x
    · exact ⟨n, le_refl n, hx, hmin⟩
    · push_neg at hmin
      obtain ⟨k, hk, hkp⟩ := hmin
      obtain ⟨d, hd, hdf⟩ := ih k hk x hkp
      exact ⟨d, le_of_lt (lt_of_le_of_lt hd hk), hdf⟩

theorem frontAt_parent (m : List (σ × Option (List (σ × π × Int))))
    (init y : σ) (r : Nat) (h : FrontAt m init (r + 1) y) :
    ∃ (x : σ) (p : π) (c : Int) (l : List (σ × π × Int)),
      FrontAt m init r x ∧ mlookup m x = some (some l) ∧
      (y, p, c) ∈ l := by
  obtain ⟨hp, hmin⟩ := h
  obtain ⟨x, p, c, l, hx, hl, hmem⟩ := hasPathN_succ_elim m init y r hp
  refine ⟨x, p, c, l, ⟨hx, ?_⟩, hl, hmem⟩
  intro k hk hc
  exact hmin (k + 1) (by omega) (HasPathN.step hc hl hmem)

theorem frontAt_nonempty_below (m : List (σ × Option (List (σ × π × Int))))
    (init : σ) :
    ∀ (n : Nat) (x : σ), FrontAt m init n x →
      ∀ k, k ≤ n → ∃ z, FrontAt m init k z := by
  intro n
  induction n with
  | zero =>
    intro x hx k hk
    interval_cases k
    exact ⟨x, hx⟩
  | succ n ih =>
    intro x hx k hk
    rcases Nat.eq_or_lt_of_le hk with rfl | hk2
    · exact ⟨x, hx⟩
    · obtain ⟨z, _, _, _, hz, _, _⟩ := frontAt_parent m init x n hx
      exact ih z hz k (by omega)

theorem hasPathN_mem_keys (m : List (σ × Option (List (σ × π × Int))))
    (init : σ) (hinit : init ∈ mkeys m)
    (htgt : ∀ (x : σ) (l : List (σ × π × Int)),
      mlookup m x = some (some l) → ∀ t ∈ l, t.1 ∈ mkeys m) :
    ∀ (n : Nat) (x : σ), HasPathN m init n x → x ∈ mkeys m := by
  intro n x h
  induction h with
  | refl => exact hinit
  | step _ hl hm _ => exact htgt _ _ hl _ hm

theorem pathOk_extend (init : σ) (r : Nat) (p : List (TEvt σ π)) (x : σ)
    (hp : PathOk init r p x) (s : σ) (t : π) (c : Int) :
    PathOk init (r + 1) (p ++ [⟨s, some t, c⟩]) s := by
  obtain ⟨hlen, hhead, ev, hlast, hst⟩ := hp
  have hne : p ≠ [] := by
    intro hc
    rw [hc] at hlen
    simp at hlen
  refine ⟨by simp [hlen], ?_, ⟨s, some t, c⟩, ?_, rfl⟩
  · rw [List.head?_append_of_ne_nil _ hne]
    exact hhead
  · exact List.getLast?_concat p

/-- Bookkeeping invariant in the middle of a replay round at level `r`:
`seen` is duplicate-free, contains every state within distance `r`, and
only states within distance `r + 1`; a seen state at exact distance
`r + 1` has its replay path in `new_paths`, and every stored new path is
a well-formed round-`r + 1` path to a seen frontier state. -/
def MidInv (m : List (σ × Option (List (σ × π × Int)))) (init : σ)
    (r : Nat) (nps : List (List (TEvt σ π))) (seen : List σ) : Prop :=
  seen.Nodup ∧
  (∀ z, distLE m init r z → z ∈ seen) ∧
  (∀ z ∈ seen, distLE m init r z ∨
    (FrontAt m init (r + 1) z ∧ ∃ p ∈ nps, ∃ ev : TEvt σ π,
      p.getLast? = some ev ∧ ev.state = z)) ∧
  (∀ p ∈ nps, ∃ y, PathOk init (r + 1) p y ∧ FrontAt m init (r + 1) y ∧
    y ∈ seen)

theorem scanSuccs_spec (m : List (σ × Option (List (σ × π × Int))))
    (init target : σ) (r : Nat) (x : σ)
    (hx : HasPathN m init r x)
    (lx : List (σ × π × Int)) (hlx : mlookup m x = some (some lx)) :
    ∀ (l : List (σ × π × Int)), (∀ t ∈ l, t ∈ lx) →
    ∀ (old : List (TEvt σ π)) (nps : List (List (TEvt σ π)))
      (seen : List σ),
      PathOk init r old x →
      MidInv m init r nps seen →
      (∀ s0 ∈ seen, s0 ∈ (scanSuccs target old l nps seen).2.2) ∧
      ((∃ fnd, (scanSuccs target old l nps seen).1 = some fnd ∧
          PathOk init (r + 1) fnd target ∧
          (∃ t ∈ l, t.1 = target)) ∨
        ((scanSuccs target old l nps seen).1 = none ∧
          MidInv m init r (scanSuccs target old l nps seen).2.1
            (scanSuccs target old l nps seen).2.2 ∧
          (∀ t ∈ l, t.1 ≠ target ∧
            t.1 ∈ (scanSuccs target old l nps seen).2.2))) := by
  intro l
  induction l with
  | nil =>
    intro _ old nps seen _ hmid
    exact ⟨fun s0 hs0 => hs0, Or.inr ⟨rfl, hmid, by simp⟩⟩
  | cons hd rest ih =>
    intro hsub old nps seen hold hmid
    obtain ⟨hseenN, hlow, hhigh, hnps⟩ := hmid
    rcases hd with ⟨s, t, c⟩
    by_cases hts : s = target
    · have hscan : scanSuccs target old ((s, t, c) :: rest) nps seen =
          (some (old ++ [⟨s, some t, c⟩]), nps, seen) := by
        simp [scanSuccs, hts]
      rw [hscan]
      have hp : PathOk init (r + 1) (old ++ [⟨s, some t, c⟩]) target := by
        rw [← hts]
        exact pathOk_extend init r old x hold s t c
      exact ⟨fun s0 hs0 => hs0, Or.inl ⟨old ++ [⟨s, some t, c⟩], rfl,
        hp, ⟨(s, t, c), by simp, hts⟩⟩⟩
    · by_cases hseen : s ∈ seen
      · have hscan : scanSuccs target old ((s, t, c) :: rest) nps seen =
            scanSuccs target old rest nps seen := by
          simp [scanSuccs, hts, hseen]
        rw [hscan]
        obtain ⟨m1, m2⟩ := ih (fun q hq => hsub q (by simp [hq])) old nps
          seen hold ⟨hseenN, hlow, hhigh, hnps⟩
        refine ⟨m1, ?_⟩
        rcases m2 with ⟨fnd, he, hp, t0, ht0, htt⟩ | ⟨he, hmid2, hall⟩
        · exact Or.inl ⟨fnd, he, hp, t0, by simp [ht0], htt⟩
        · refine Or.inr ⟨he, hmid2, ?_⟩
          intro q hq
          rcases List.mem_cons.mp hq with rfl | hq
          · exact ⟨hts, m1 s hseen⟩
          · exact hall q hq
      · -- a fresh state at exact distance r + 1 is discovered
        have hsfront : FrontAt m init (r + 1) s := by
          refine ⟨HasPathN.step hx hlx (hsub (s, t, c) (by simp)), ?_⟩
          intro k hk hc
          exact hseen (hlow s ⟨k, by omega, hc⟩)
        have hnew : PathOk init (r + 1) (old ++ [⟨s, some t, c⟩]) s :=
          pathOk_extend init r old x hold s t c
        have hmid2 : MidInv m init r (nps ++ [old ++ [⟨s, some t, c⟩]])
            (seen ++ [s]) := by
          refine ⟨?_, ?_, ?_, ?_⟩
          · simpa [List.nodup_append] using ⟨hseenN, hseen⟩
          · intro z hz
            simp only [List.mem_append]
            exact Or.inl (hlow z hz)
          · intro z hz
            rcases List.mem_append.mp hz with hz | hz
            · rcases hhigh z hz with h | ⟨hf, p0, hp0, hev⟩
              · exact Or.inl h
              · exact Or.inr ⟨hf, p0, by simp [hp0], hev⟩
            · simp only [List.mem_singleton] at hz
              subst hz
              obtain ⟨ev, hev, hst⟩ := hnew.2.2
              exact Or.inr ⟨hsfront,
                old ++ [⟨z, some t, c⟩], by simp, ev, hev, hst⟩
          · intro p0 hp0
            rcases List.mem_append.mp hp0 with hp0 | hp0
            · obtain ⟨y, hy1, hy2, hy3⟩ := hnps p0 hp0
              exact ⟨y, hy1, hy2, by simp [hy3]⟩
            · simp only [List.mem_singleton] at hp0
              subst hp0
              exact ⟨s, hnew, hsfront, by simp⟩
        have hscan : scanSuccs target old ((s, t, c) :: rest) nps seen =
            scanSuccs target old rest (nps ++ [old ++ [⟨s, some t, c⟩]])
              (seen ++ [s]) := by
          simp [scanSuccs, hts, hseen]
        rw [hscan]
        obtain ⟨m1, m2⟩ := ih (fun q hq => hsub q (by simp [hq])) old _ _
          hold hmid2
        have hmono : ∀ s0 ∈ seen,
            s0 ∈ (scanSuccs target old rest
              (nps ++ [old ++ [⟨s, some t, c⟩]]) (seen ++ [s])).2.2 :=
          fun s0 hs0 => m1 s0 (by simp [hs0])
        refine ⟨hmono, ?_⟩
        rcases m2 with ⟨fnd, he, hp, t0, ht0, htt⟩ | ⟨he, hmid3, hall⟩
        · exact Or.inl ⟨fnd, he, hp, t0, by simp [ht0], htt⟩
        · refine Or.inr ⟨he, hmid3, ?_⟩
          intro q hq
          rcases List.mem_cons.mp hq with rfl | hq
          · exact ⟨hts, m1 s (by simp)⟩
          · exact hall q hq

theorem roundGo_spec (m : List (σ × Option (List (σ × π × Int))))
    (init target : σ) (r : Nat)
    (hexp : ∀ x, FrontAt m init r x → ∃ l, mlookup m x = some (some l)) :
    ∀ (ops : List (List (TEvt σ π))) (nps : List (List (TEvt σ π)))
      (seen : List σ),
      (∀ p ∈ ops, ∃ x, PathOk init r p x ∧ FrontAt m init r x) →
      MidInv m init r nps seen →
      (∃ fnd, roundGo m target ops nps seen = .found fnd ∧
        PathOk init (r + 1) fnd target ∧
        HasPathN m init (r + 1) target) ∨
      (∃ nps2 seen2, roundGo m target ops nps seen = .next nps2 seen2 ∧
        MidInv m init r nps2 seen2 ∧
        (∀ s0 ∈ seen, s0 ∈ seen2) ∧
        (∀ p ∈ ops, ∀ x,
          (∃ ev : TEvt σ π, p.getLast? = some ev ∧ ev.state = x) →
          ∀ l, mlookup m x = some (some l) →
            ∀ t ∈ l, t.1 ≠ target ∧ t.1 ∈ seen2)) := by
  intro ops
  induction ops with
  | nil =>
    intro nps seen _ hmid
    refine Or.inr ⟨nps, seen, rfl, hmid, fun s0 hs0 => hs0, ?_⟩
    intro p hp
    simp at hp
  | cons old rest ih =>
    intro nps seen hops hmid
    obtain ⟨x, holdOk, hfront⟩ := hops old (by simp)
    obtain ⟨ev, hlast, hevx⟩ := holdOk.2.2
    obtain ⟨l, hl⟩ := hexp x hfront
    have hlev : mlookup m ev.state = some (some l) := by
      rw [hevx]; exact hl
    obtain ⟨smono, scase⟩ := scanSuccs_spec m init target r x hfront.1 l hl
      l (fun q hq => hq) old nps seen holdOk hmid
    rcases hscan : scanSuccs target old l nps seen with ⟨res, nps2, seen2⟩
    rw [hscan] at smono scase
    rcases res with _ | fnd
    · -- no find in this path's successors: continue with the rest
      rcases scase with ⟨fnd, hcf, _⟩ | ⟨_, hmid2, hall⟩
      · exact absurd hcf (by simp)
      · have hrg : roundGo m target (old :: rest) nps seen =
            roundGo m target rest nps2 seen2 := by
          simp only [roundGo, hlast, hlev, hscan]
        rcases ih nps2 seen2 (fun p hp => hops p (by simp [hp])) hmid2 with
          ⟨fnd, hf1, hf2, hf3⟩ | ⟨nps3, seen3, hn1, hn2, hn3, hn4⟩
        · exact Or.inl ⟨fnd, by rw [hrg]; exact hf1, hf2, hf3⟩
        · refine Or.inr ⟨nps3, seen3, by rw [hrg]; exact hn1, hn2,
            fun s0 hs0 => hn3 s0 (smono s0 hs0), ?_⟩
          intro p hp x0 hx0 l0 hl0 t0 ht0
          rcases List.mem_cons.mp hp with rfl | hp
          · obtain ⟨ev0, hev0, hx00⟩ := hx0
            rw [hlast] at hev0
            have hx0x : x0 = x := by
              rw [← hx00, Option.some_inj.mp hev0.symm, hevx]
            rw [hx0x] at hl0
            rw [hl] at hl0
            have hll : l0 = l :=
              Option.some_inj.mp (Option.some_inj.mp hl0).symm ▸ rfl
            have hl0l : l0 = l := by
              have := Option.some_inj.mp hl0
              exact (Option.some_inj.mp this).symm
            rw [hl0l] at ht0
            obtain ⟨ha, hb⟩ := hall t0 ht0
            exact ⟨ha, hn3 t0.1 hb⟩
          · exact hn4 p hp x0 hx0 l0 hl0 t0 ht0
    · -- found: the target is a successor of this path's end
      rcases scase with ⟨fnd2, hcf, hpok, t0, ht0, htt⟩ | ⟨hcf, _, _⟩
      · have hfe : fnd = fnd2 := by
          simpa using hcf
        subst hfe
        have hrg : roundGo m target (old :: rest) nps seen =
            .found fnd := by
          simp only [roundGo, hlast, hlev, hscan]
        refine Or.inl ⟨fnd, hrg, hpok, ?_⟩
        have hmem : ((target, t0.2.1, t0.2.2) : σ × π × Int) ∈ l := by
          have : ((t0.1, t0.2.1, t0.2.2) : σ × π × Int) ∈ l := by
            simpa using ht0
          rw [htt] at this
          exact this
        exact HasPathN.step hfront.1 hl hmem
      · exact absurd hcf (by simp)

/-- Invariant at the start of a replay round at level `r`: `seen` is the
set of states within distance `r`, and the pending paths are well-formed
round-`r` paths covering exactly the states at exact distance `r`. -/
def EntryInv (m : List (σ × Option (List (σ × π × Int)))) (init : σ)
    (r : Nat) (ops : List (List (TEvt σ π))) (seen : List σ) : Prop :=
  seen.Nodup ∧
  (∀ z, z ∈ seen ↔ distLE m init r z) ∧
  (∀ p ∈ ops, ∃ x, PathOk init r p x ∧ FrontAt m init r x) ∧
  (∀ x, FrontAt m init r x →
    ∃ p ∈ ops, ∃ ev : TEvt σ π, p.getLast? = some ev ∧ ev.state = x)

theorem entryInv_start (m : List (σ × Option (List (σ × π × Int))))
    (init : σ) :
    EntryInv m init 0 [[(⟨init, none, 0⟩ : TEvt σ π)]] [init] := by
  refine ⟨by simp, ?_, ?_, ?_⟩
  · intro z
    constructor
    · intro hz
      simp only [List.mem_singleton] at hz
      subst hz
      exact ⟨0, le_refl 0, HasPathN.refl⟩
    · intro ⟨n, hn, hp⟩
      interval_cases n
      simp [hasPathN_zero m init z hp]
  · intro p hp
    simp only [List.mem_singleton] at hp
    subst hp
    exact ⟨init, ⟨rfl, rfl, ⟨init, none, 0⟩, rfl, rfl⟩,
      HasPathN.refl, fun k hk => by omega⟩
  · intro x hx
    have := hasPathN_zero m init x hx.1
    subst this
    exact ⟨[⟨x, none, 0⟩], by simp, ⟨x, none, 0⟩, rfl, rfl⟩

theorem round_next (m : List (σ × Option (List (σ × π × Int))))
    (init target : σ) (r : Nat)
    (hexp : ∀ x, FrontAt m init r x → ∃ l, mlookup m x = some (some l))
    (ops : List (List (TEvt σ π))) (seen : List σ)
    (hentry : EntryInv m init r ops seen) :
    (∃ fnd, roundGo m target ops [] seen = .found fnd ∧
      PathOk init (r + 1) fnd target ∧ HasPathN m init (r + 1) target) ∨
    (∃ nps2 seen2, roundGo m target ops [] seen = .next nps2 seen2 ∧
      EntryInv m init (r + 1) nps2 seen2 ∧
      ¬ FrontAt m init (r + 1) target) := by
  obtain ⟨hseenN, hiff, hops, hcov⟩ := hentry
  have hmid : MidInv m init r [] seen := by
    refine ⟨hseenN, fun z hz => (hiff z).mpr hz, ?_, by simp⟩
    intro z hz
    exact Or.inl ((hiff z).mp hz)
  rcases roundGo_spec m init target r hexp ops [] seen hops hmid with
    ⟨fnd, h1, h2, h3⟩ | ⟨nps2, seen2, h1, hmid2, hmono, hproc⟩
  · exact Or.inl ⟨fnd, h1, h2, h3⟩
  · obtain ⟨hN2, hlow2, hhigh2, hnps2⟩ := hmid2
    -- every state at exact distance r + 1 was put into seen2
    have hfrontseen : ∀ y, FrontAt m init (r + 1) y →
        y ∈ seen2 ∧ y ≠ target := by
      intro y hy
      obtain ⟨w, p0, c0, lw, hw, hlw, hmem⟩ :=
        frontAt_parent m init y r hy
      obtain ⟨pp, hpp, ev, hev, hevw⟩ := hcov w hw
      have := hproc pp hpp w ⟨ev, hev, hevw⟩ lw hlw (y, p0, c0) hmem
      exact ⟨this.2, fun hc => this.1 (by simp [hc])⟩
    refine Or.inr ⟨nps2, seen2, h1, ⟨hN2, ?_, ?_, ?_⟩, ?_⟩
    · intro z
      constructor
      · intro hz
        rcases hhigh2 z hz with hd | ⟨hf, _⟩
        · obtain ⟨n, hn, hp⟩ := hd
          exact ⟨n, by omega, hp⟩
        · exact ⟨r + 1, le_refl _, hf.1⟩
      · intro ⟨n, hn, hp⟩
        obtain ⟨d, hdn, hdf⟩ := hasPathN_min m init n z hp
        rcases Nat.lt_or_ge d (r + 1) with hlt | hge
        · exact hmono z ((hiff z).mpr ⟨d, by omega, hdf.1⟩)
        · have hde : d = r + 1 := by omega
          rw [hde] at hdf
          exact (hfrontseen z hdf).1
    · intro p hp
      obtain ⟨y, hy1, hy2, _⟩ := hnps2 p hp
      exact ⟨y, hy1, hy2⟩
    · intro x hx
      have hxs := (hfrontseen x hx).1
      rcases hhigh2 x hxs with hd | ⟨_, p0, hp0, hev⟩
      · exfalso
        obtain ⟨n, hn, hp⟩ := hd
        exact hx.2 n (by omega) hp
      · exact ⟨p0, hp0, hev⟩
    · intro hc
      exact (hfrontseen target hc).2 rfl

theorem seen_lt_keys (m : List (σ × Option (List (σ × π × Int))))
    (hK : (mkeys m).Nodup) (seen : List σ) (hseenN : seen.Nodup)
    (hsub : ∀ z ∈ seen, z ∈ mkeys m) (t : σ) (ht : t ∈ mkeys m)
    (hnt : t ∉ seen) : seen.length < m.length := by
  have h1 : (t :: seen).Nodup := List.Nodup.cons hnt hseenN
  have h2 : (t :: seen) ⊆ mkeys m := by
    intro z hz
    rcases List.mem_cons.mp hz with rfl | hz
    · exact ht
    · exact hsub z hz
  have h3 := (List.subperm_of_subset h1 h2).length_le
  have h4 : (mkeys m).length = m.length := List.length_map _ _
  simp only [List.length_cons] at h3
  omega

theorem exists_unseen (m : List (σ × Option (List (σ × π × Int))))
    (hK : (mkeys m).Nodup) (seen : List σ)
    (hlt : seen.length < m.length) : ∃ y ∈ mkeys m, y ∉ seen := by
  by_contra hc
  push_neg at hc
  have h3 := (List.subperm_of_subset hK (fun z hz => hc z hz)).length_le
  have h4 : (mkeys m).length = m.length := List.length_map _ _
  omega

theorem frontAt_lt_card (m : List (σ × Option (List (σ × π × Int))))
    (init : σ) (hinit : init ∈ mkeys m)
    (htgt : ∀ (x : σ) (l : List (σ × π × Int)),
      mlookup m x = some (some l) → ∀ t ∈ l, t.1 ∈ mkeys m)
    (d : Nat) (target : σ) (hd : FrontAt m init d target) :
    d < m.length := by
  classical
  have hpick : ∀ k : Fin (d + 1), ∃ z, FrontAt m init k.1 z := by
    intro k
    exact frontAt_nonempty_below m init d target hd k.1
      (Nat.lt_succ_iff.mp k.2)
  set g : Fin (d + 1) → σ := fun k => Classical.choose (hpick k) with hg
  have hgf : ∀ k : Fin (d + 1), FrontAt m init k.1 (g k) :=
    fun k => Classical.choose_spec (hpick k)
  have hmem : ∀ k : Fin (d + 1), g k ∈ (mkeys m).toFinset := by
    intro k
    rw [List.mem_toFinset]
    exact hasPathN_mem_keys m init hinit htgt k.1 (g k) (hgf k).1
  have hinj : Function.Injective g := by
    intro a b hab
    by_contra hne
    rcases Nat.lt_or_ge a.1 b.1 with hlt | hge
    · exact (hgf b).2 a.1 hlt (hab ▸ (hgf a).1)
    · have hlt : b.1 < a.1 := by
        rcases Nat.lt_or_ge b.1 a.1 with h | h
        · exact h
        · exact absurd (Fin.ext (by omega)) hne
      exact (hgf a).2 b.1 hlt (hab ▸ (hgf b).1)
  have hcard : (Finset.univ : Finset (Fin (d + 1))).card ≤
      (mkeys m).toFinset.card :=
    Finset.card_le_card_of_injOn g (fun k _ => hmem k)
      (Function.Injective.injOn hinj)
  simp only [Finset.card_univ, Fintype.card_fin] at hcard
  have hlen : (mkeys m).toFinset.card ≤ (mkeys m).length :=
    List.toFinset_card_le _
  have h4 : (mkeys m).length = m.length := List.length_map _ _
  omega

theorem traceLoop_finds (m : List (σ × Option (List (σ × π × Int))))
    (init target : σ) (d : Nat)
    (hK : (mkeys m).Nodup)
    (htgt : ∀ (x : σ) (l : List (σ × π × Int)),
      mlookup m x = some (some l) → ∀ t ∈ l, t.1 ∈ mkeys m)
    (hd : FrontAt m init d target)
    (hexp : ∀ k x, k < d → FrontAt m init k x →
      ∃ l, mlookup m x = some (some l))
    (hdpos : 1 ≤ d) :
    ∀ (fuel r : Nat) (ops : List (List (TEvt σ π))) (seen : List σ),
      r < d → EntryInv m init r ops seen → d - r ≤ fuel →
      ∃ fnd, traceLoop m target fuel ops seen = .ok fnd ∧
        PathOk init d fnd target := by
  have hinit : init ∈ mkeys m := by
    obtain ⟨l, hl⟩ := hexp 0 init hdpos ⟨HasPathN.refl, fun k hk => by omega⟩
    rw [← mlookup_isSome_iff, hl]
    rfl
  intro fuel
  induction fuel with
  | zero =>
    intro r ops seen hr _ hf
    omega
  | succ fuel ih =>
    intro r ops seen hr hentry hf
    obtain ⟨hseenN, hiff, hops, hcov⟩ := hentry
    have hseensub : ∀ z ∈ seen, z ∈ mkeys m := by
      intro z hz
      obtain ⟨n, _, hp⟩ := (hiff z).mp hz
      exact hasPathN_mem_keys m init hinit htgt n z hp
    have htk : target ∈ mkeys m :=
      hasPathN_mem_keys m init hinit htgt d target hd.1
    have htns : target ∉ seen := by
      intro hc
      obtain ⟨n, hn, hp⟩ := (hiff target).mp hc
      exact hd.2 n (by omega) hp
    have hguard : seen.length < m.length :=
      seen_lt_keys m hK seen hseenN hseensub target htk htns
    have hunfold : traceLoop m target (fuel + 1) ops seen =
        match roundGo m target ops [] seen with
        | .found l => .ok l
        | .err e => e
        | .next nps seen2 => traceLoop m target fuel nps seen2 := by
      simp only [traceLoop, if_pos hguard]
    rcases round_next m init target r
        (fun x hx => hexp r x hr hx) ops seen
        ⟨hseenN, hiff, hops, hcov⟩ with
      ⟨fnd, h1, h2, h3⟩ | ⟨nps2, seen2, h1, hentry2, hnt⟩
    · -- found: only possible at the target's exact distance
      have hrd : r + 1 = d := by
        rcases Nat.lt_or_ge (r + 1) d with hlt | hge
        · exact absurd h3 (hd.2 (r + 1) hlt)
        · omega
      refine ⟨fnd, ?_, hrd ▸ h2⟩
      rw [hunfold, h1]
    · -- not found: the target is strictly further, continue
      have hrd : r + 1 < d := by
        rcases Nat.lt_or_ge (r + 1) d with hlt | hge
        · exact hlt
        · exfalso
          have : r + 1 = d := by omega
          exact hnt (this ▸ hd)
      obtain ⟨fnd, hrun, hp⟩ := ih (r + 1) nps2 seen2 hrd hentry2 (by omega)
      refine ⟨fnd, ?_, hp⟩
      rw [hunfold, h1]
      exact hrun

theorem traceLoop_empty (m : List (σ × Option (List (σ × π × Int))))
    (init target : σ)
    (hK : (mkeys m).Nodup) (hinit : init ∈ mkeys m)
    (htgt : ∀ (x : σ) (l : List (σ × π × Int)),
      mlookup m x = some (some l) → ∀ t ∈ l, t.1 ∈ mkeys m)
    (hexpAll : ∀ x ∈ mkeys m, ∃ l, mlookup m x = some (some l))
    (hreach : ∀ x ∈ mkeys m, ∃ n, HasPathN m init n x)
    (htarget : target ∉ mkeys m) :
    ∀ (fuel r : Nat) (ops : List (List (TEvt σ π))) (seen : List σ),
      EntryInv m init r ops seen → m.length - seen.length < fuel →
      traceLoop m target fuel ops seen = .ok [] := by
  intro fuel
  induction fuel with
  | zero =>
    intro r ops seen _ hf
    omega
  | succ fuel ih =>
    intro r ops seen hentry hf
    obtain ⟨hseenN, hiff, hops, hcov⟩ := hentry
    by_cases hguard : seen.length < m.length
    · have hexp : ∀ x, FrontAt m init r x →
          ∃ l, mlookup m x = some (some l) := by
        intro x hx
        exact hexpAll x (hasPathN_mem_keys m init hinit htgt r x hx.1)
      have hunfold : traceLoop m target (fuel + 1) ops seen =
          match roundGo m target ops [] seen with
          | .found l => .ok l
          | .err e => e
          | .next nps seen2 => traceLoop m target fuel nps seen2 := by
        simp only [traceLoop, if_pos hguard]
      rcases round_next m init target r hexp ops seen
          ⟨hseenN, hiff, hops, hcov⟩ with
        ⟨fnd, h1, h2, h3⟩ | ⟨nps2, seen2, h1, hentry2, hnt⟩
      · exfalso
        exact htarget
          (hasPathN_mem_keys m init hinit htgt (r + 1) target h3)
      · -- the frontier is nonempty while the guard holds, so seen grows
        obtain ⟨y, hyk, hyns⟩ := exists_unseen m hK seen hguard
        obtain ⟨ny, hny⟩ := hreach y hyk
        obtain ⟨dy, hdyn, hdyf⟩ := hasPathN_min m init ny y hny
        have hdyr : r < dy := by
          by_contra hc
          push_neg at hc
          exact hyns ((hiff y).mpr ⟨dy, hc, hdyf.1⟩)
        obtain ⟨z, hz⟩ :=
          frontAt_nonempty_below m init dy y hdyf (r + 1) (by omega)
        have hz2 : z ∈ seen2 :=
          (hentry2.2.1 z).mpr ⟨r + 1, le_refl _, hz.1⟩
        have hzns : z ∉ seen := by
          intro hc
          obtain ⟨n, hn, hp⟩ := (hiff z).mp hc
          exact hz.2 n (by omega) hp
        have hmono : ∀ s0 ∈ seen, s0 ∈ seen2 := by
          intro s0 hs0
          obtain ⟨n, hn, hp⟩ := (hiff s0).mp hs0
          exact (hentry2.2.1 s0).mpr ⟨n, by omega, hp⟩
        have hgrow : seen.length + 1 ≤ seen2.length := by
          have h1' : (z :: seen).Nodup := List.Nodup.cons hzns hseenN
          have h2' : (z :: seen) ⊆ seen2 := by
            intro w hw
            rcases List.mem_cons.mp hw with rfl | hw
            · exact hz2
            · exact hmono w hw
          have := (List.subperm_of_subset h1' h2').length_le
          simpa using this
        rw [hunfold, h1]
        exact ih (r + 1) nps2 seen2 hentry2 (by omega)
    · simp only [traceLoop, if_neg hguard]

theorem pyTrace_found (m : List (σ × Option (List (σ × π × Int))))
    (init target : σ) (d : Nat)
    (hK : (mkeys m).Nodup)
    (htgt : ∀ (x : σ) (l : List (σ × π × Int)),
      mlookup m x = some (some l) → ∀ t ∈ l, t.1 ∈ mkeys m)
    (hd : FrontAt m init d target)
    (hexp : ∀ k x, k < d → FrontAt m init k x →
      ∃ l, mlookup m x = some (some l)) :
    ∃ fnd, pyTrace m init target (m.length + 1) = .ok fnd ∧
      PathOk init d fnd target := by
  rcases Nat.eq_zero_or_pos d with rfl | hdpos
  · have hti : target = init := hasPathN_zero m init target hd.1
    subst hti
    refine ⟨[⟨target, none, 0⟩], by simp [pyTrace], ?_⟩
    exact ⟨rfl, rfl, ⟨target, none, 0⟩, rfl, rfl⟩
  · have hne : target ≠ init := by
      intro hc
      subst hc
      exact hd.2 0 hdpos HasPathN.refl
    have hinit : init ∈ mkeys m := by
      obtain ⟨l, hl⟩ := hexp 0 init hdpos
        ⟨HasPathN.refl, fun k hk => by omega⟩
      rw [← mlookup_isSome_iff, hl]
      rfl
    have hdlt : d < m.length :=
      frontAt_lt_card m init hinit htgt d target hd
    obtain ⟨fnd, hrun, hp⟩ :=
      traceLoop_finds m init target d hK htgt hd hexp hdpos
        (m.length + 1) 0 [[⟨init, none, 0⟩]] [init] hdpos
        (entryInv_start m init) (by omega)
    refine ⟨fnd, ?_, hp⟩
    simp only [pyTrace, if_neg hne]
    exact hrun

theorem pyTrace_missing (m : List (σ × Option (List (σ × π × Int))))
    (init target : σ)
    (hK : (mkeys m).Nodup) (hinit : init ∈ mkeys m)
    (htgt : ∀ (x : σ) (l : List (σ × π × Int)),
      mlookup m x = some (some l) → ∀ t ∈ l, t.1 ∈ mkeys m)
    (hexpAll : ∀ x ∈ mkeys m, ∃ l, mlookup m x = some (some l))
    (hreach : ∀ x ∈ mkeys m, ∃ n, HasPathN m init n x)
    (htarget : target ∉ mkeys m) :
    pyTrace m init target (m.length + 1) = .ok [] := by
  have hne : target ≠ init := by
    intro hc
    subst hc
    exact htarget hinit
  simp only [pyTrace, if_neg hne]
  refine traceLoop_empty m init target hK hinit htgt hexpAll hreach
    htarget (m.length + 1) 0 [[⟨init, none, 0⟩]] [init]
    (entryInv_start m init) ?_
  simp
  omega

theorem firstFail_spec (props : List (String × Prp σ)) (x : σ)
    (src : String) (isR : Bool) :
    firstFail props x = some (src, isR) →
    ∃ (pre post : List (String × Prp σ)) (prp : Prp σ),
      props = pre ++ (src, prp) :: post ∧
      (∀ q ∈ pre, q.2 x = some true) ∧
      ((isR = true ∧ prp x = none) ∨ (isR = false ∧ prp x = some false)) := by
  induction props with
  | nil => intro h; simp [firstFail] at h
  | cons q rest ih =>
    intro h
    rcases q with ⟨s0, p0⟩
    rcases hp0 : p0 x with _ | b
    · simp only [firstFail, hp0] at h
      obtain ⟨rfl, rfl⟩ : s0 = src ∧ true = isR := by
        constructor <;> [exact (Prod.mk.injEq .. ▸
          Option.some_inj.mp h).1; exact (Prod.mk.injEq .. ▸
          Option.some_inj.mp h).2]
      exact ⟨[], rest, p0, by simp, by simp, Or.inl ⟨rfl, hp0⟩⟩
    · rcases b with _ | _
      · simp only [firstFail, hp0] at h
        obtain ⟨rfl, rfl⟩ : s0 = src ∧ false = isR := by
          constructor <;> [exact (Prod.mk.injEq .. ▸
            Option.some_inj.mp h).1; exact (Prod.mk.injEq .. ▸
            Option.some_inj.mp h).2]
        exact ⟨[], rest, p0, by simp, by simp, Or.inr ⟨rfl, hp0⟩⟩
      · simp only [firstFail, hp0] at h
        obtain ⟨pre, post, prp, h1, h2, h3⟩ := ih h
        refine ⟨(s0, p0) :: pre, post, prp, by simp [h1], ?_, h3⟩
        intro q hq
        rcases List.mem_cons.mp hq with rfl | hq
        · exact hp0
        · exact h2 q hq

end Trace

/-- C7 (amended): when the Explorer pops a state, the compiled
properties are evaluated in declaration order and the first one that
evaluates falsy, or raises while evaluating, stops the iteration with
`AssertFailed` carrying the property source, the offending state and
whether an underlying cause exception exists; the visited map is left
exactly as recorded.  After such a stop, `trace` on the offending state
still returns a sequence of events from the initial state to it of
length one more than its breadth-first distance, provided every recorded
state strictly closer than the offending state is expanded and every
recorded edge target is recorded — conditions guaranteed by unlimited
breadth-first exploration but violated by depth-first exploration, where
`trace` can instead die with a TypeError on a pending marker. -/
theorem explorer_assert_fail_amended {σ π : Type} [DecidableEq σ] :
    (∀ (f : σ → List (σ × π × Int)) (props : List (String × Prp σ))
       (depth : Bool) (limit : Option Nat) (e e2 : Expl σ π)
       (src : String) (st : σ) (isR : Bool),
      stepE f props depth limit e = .failed src st isR e2 →
      e2.succm = e.succm ∧
      ∃ (pre post : List (String × Prp σ)) (prp : Prp σ),
        props = pre ++ (src, prp) :: post ∧
        (∀ q ∈ pre, q.2 st = some true) ∧
        ((isR = true ∧ prp st = none) ∨
          (isR = false ∧ prp st = some false))) ∧
    (∀ (m : List (σ × Option (List (σ × π × Int)))) (init st : σ)
       (d : Nat),
      (mkeys m).Nodup →
      (∀ (x : σ) (l : List (σ × π × Int)),
        mlookup m x = some (some l) → ∀ t ∈ l, t.1 ∈ mkeys m) →
      FrontAt m init d st →
      (∀ k x, k < d → FrontAt m init k x →
        ∃ l, mlookup m x = some (some l)) →
      ∃ fnd, pyTrace m init st (m.length + 1) = .ok fnd ∧
        PathOk init d fnd st) := by
  constructor
  · intro f props depth limit e e2 src st isR h
    obtain ⟨todo1, hpop, hff, he2⟩ :=
      stepE_failed_elim f props depth limit e e2 src st isR h
    exact ⟨by rw [he2], firstFail_spec props st src isR hff⟩
  · intro m init st d hK htgt hd hexp
    exact pyTrace_found m init st d hK htgt hd hexp

/-- The successor function of the depth-first counterexample: state 0
branches to 1 and 2, state 2 reaches 3, nothing else moves. -/
def dfsF : Nat → List (Nat × Nat × Int) :=
  fun s =>
    if s = 0 then [(1, 0, 0), (2, 0, 0)]
    else if s = 2 then [(3, 0, 0)] else []

/-- One property that fails exactly on state 3. -/
def dfsProps : List (String × Prp Nat) :=
  [("state < 3", fun s => some (decide (s < 3)))]

/-- C7 (counterexample): exploring the `dfsF` system depth-first stops
with the property failure on state 3, but `trace(3)` over what was
recorded steps into the pending marker of the never-expanded state 1 and
dies with a TypeError instead of returning an event sequence: the
claim's "trace on the offending state still works" is false as
stated. -/
theorem explorer_assert_fail_counterexample :
    (runE dfsF dfsProps true none 5 (expl0 0)).status =
      .failedEnd "state < 3" 3 false ∧
    (runE dfsF dfsProps true none 5 (expl0 0)).finE.succm =
      [(0, some [(1, 0, 0), (2, 0, 0)]), (1, none),
       (2, some [(3, 0, 0)]), (3, none)] ∧
    pyTrace (runE dfsF dfsProps true none 5 (expl0 0)).finE.succm 0 3
      ((runE dfsF dfsProps true none 5 (expl0 0)).finE.succm.length + 1) =
      (.noneErr : TraceRes Nat Nat) := by
  refine ⟨?_, ?_, ?_⟩ <;> rfl

/-- The explorer about to pop the failing state in the depth-first
counterexample run. -/
def dfsExpl : Expl Nat Nat :=
  ⟨[(0, some [(1, 0, 0), (2, 0, 0)]), (1, none),
    (2, some [(3, 0, 0)]), (3, none)], [1, 3]⟩

/-- The same explorer after the failing pop. -/
def dfsExpl2 : Expl Nat Nat :=
  ⟨[(0, some [(1, 0, 0), (2, 0, 0)]), (1, none),
    (2, some [(3, 0, 0)]), (3, none)], [1]⟩

/-- A fully expanded two-state breadth-first visited map. -/
def bfsMap : List (Nat × Option (List (Nat × Nat × Int))) :=
  [(0, some [(1, 5, 2)]), (1, some [])]

theorem explorer_assert_fail_amended_witness :
    (stepE dfsF dfsProps true none dfsExpl =
      .failed "state < 3" 3 false dfsExpl2) ∧
    dfsExpl2.succm = dfsExpl.succm ∧
    (∃ fnd, pyTrace bfsMap 0 1 (bfsMap.length + 1) = .ok fnd ∧
      PathOk 0 1 fnd 1) :=
  ⟨rfl,
   (explorer_assert_fail_amended.1 dfsF dfsProps true none dfsExpl dfsExpl2
     "state < 3" 3 false rfl).1,
   explorer_assert_fail_amended.2 bfsMap 0 1 1 (by decide)
     (by
       intro x l hl t ht
       by_cases h0 : (0 : Nat) = x
       · rw [← h0] at hl
         rw [show mlookup bfsMap 0 = some (some [(1, 5, 2)]) from rfl] at hl
         have hle : [((1 : Nat), (5 : Nat), (2 : Int))] = l := by
           simpa using hl
         subst hle
         simp at ht
         subst ht
         simp [bfsMap, mkeys]
       · by_cases h1 : (1 : Nat) = x
         · rw [← h1] at hl
           rw [show mlookup bfsMap 1 =
             some (some ([] : List (Nat × Nat × Int))) from rfl] at hl
           have hle : ([] : List (Nat × Nat × Int)) = l := by
             simpa using hl
           rw [← hle] at ht
           simp at ht
         · simp [bfsMap, mlookup, h0, h1] at hl)
     ⟨HasPathN.step HasPathN.refl rfl (List.mem_singleton.mpr rfl), by
       intro k hk hc
       interval_cases k
       have h := hasPathN_zero bfsMap 0 1 hc
       simp at h⟩
     (by
       intro k x hk hx
       interval_cases k
       have h := hasPathN_zero bfsMap 0 x hx.1
       rw [h]
       exact ⟨[(1, 5, 2)], rfl⟩)⟩

/-- C8 (amended): over a visited map produced by a completed, errorless,
unlimited run (abstractly: keys duplicate-free, initial state recorded,
every recorded state expanded with its edge targets recorded, every
recorded state reachable over the recorded edges), `trace(target)` for a
recorded target returns a sequence of events whose first element is the
initial event, whose last element's state is the target, and whose
length is one more than the breadth-first shortest-path distance from
the initial state to the target over the recorded edges; for a target
never recorded it returns the empty sequence. -/
theorem trace_shortest_path_amended {σ π : Type} [DecidableEq σ]
    (m : List (σ × Option (List (σ × π × Int)))) (init target : σ)
    (hK : (mkeys m).Nodup) (hinit : init ∈ mkeys m)
    (htgt : ∀ (x : σ) (l : List (σ × π × Int)),
      mlookup m x = some (some l) → ∀ t ∈ l, t.1 ∈ mkeys m)
    (hexpAll : ∀ x ∈ mkeys m, ∃ l, mlookup m x = some (some l))
    (hreach : ∀ x ∈ mkeys m, ∃ n, HasPathN m init n x) :
    (target ∈ mkeys m →
      ∃ fnd d, pyTrace m init target (m.length + 1) = .ok fnd ∧
        FrontAt m init d target ∧ PathOk init d fnd target) ∧
    (target ∉ mkeys m →
      pyTrace m init target (m.length + 1) = (.ok [] : TraceRes σ π)) := by
  constructor
  · intro ht
    obtain ⟨n, hn⟩ := hreach target ht
    obtain ⟨d, _, hdf⟩ := hasPathN_min m init n target hn
    obtain ⟨fnd, h1, h2⟩ := pyTrace_found m init target d hK htgt hdf
      (fun k x _ hx => hexpAll x
        (hasPathN_mem_keys m init hinit htgt k x hx.1))
    exact ⟨fnd, d, h1, hdf, h2⟩
  · intro ht
    exact pyTrace_missing m init target hK hinit htgt hexpAll hreach ht

/-- C8 (counterexample): on the one-state visited map, `trace` of the
initial state returns the single initial event, a sequence of length 1,
while the breadth-first shortest-path distance is 0 — the returned
length is one more than the distance, not equal to it.  And on a
recorded-but-partial visited map (from an interrupted depth-first run),
`trace` of a recorded state dies with a TypeError instead of returning a
sequence at all. -/
theorem trace_shortest_path_counterexample :
    pyTrace [((0 : Nat), some ([] : List (Nat × Nat × Int)))] 0 0 2 =
      .ok [⟨0, none, 0⟩] ∧
    ([(⟨0, none, 0⟩ : TEvt Nat Nat)]).length = 1 ∧
    HasPathN [((0 : Nat), some ([] : List (Nat × Nat × Int)))] 0 0 0 ∧
    (1 : Nat) ≠ 0 ∧
    pyTrace [((0 : Nat), some [(1, 0, 0), (2, 0, 0)]), (1, none),
        (2, some [(3, 0, 0)]), (3, none)] 0 3 5 =
      (.noneErr : TraceRes Nat Nat) :=
  ⟨rfl, rfl, HasPathN.refl, by decide, rfl⟩

theorem trace_shortest_path_amended_witness :
    ((mkeys bfsMap).Nodup ∧ (1 : Nat) ∈ mkeys bfsMap) ∧
    (∃ fnd d, pyTrace bfsMap 0 1 (bfsMap.length + 1) = .ok fnd ∧
      FrontAt bfsMap 0 d 1 ∧ PathOk 0 d fnd 1) :=
  ⟨⟨by decide, by decide⟩,
   (trace_shortest_path_amended bfsMap 0 1 (by decide) (by decide)
     (by
       intro x l hl t ht
       by_cases h0 : (0 : Nat) = x
       · rw [← h0] at hl
         rw [show mlookup bfsMap 0 = some (some [(1, 5, 2)]) from rfl] at hl
         have hle : [((1 : Nat), (5 : Nat), (2 : Int))] = l := by
           simpa using hl
         subst hle
         simp at ht
         subst ht
         simp [bfsMap, mkeys]
       · by_cases h1 : (1 : Nat) = x
         · rw [← h1] at hl
           rw [show mlookup bfsMap 1 =
             some (some ([] : List (Nat × Nat × Int))) from rfl] at hl
           have hle : ([] : List (Nat × Nat × Int)) = l := by
             simpa using hl
           rw [← hle] at ht
           simp at ht
         · simp [bfsMap, mlookup, h0, h1] at hl)
     (by
       intro x hx
       simp [bfsMap, mkeys] at hx
       rcases hx with rfl | rfl
       · exact ⟨[(1, 5, 2)], rfl⟩
       · exact ⟨[], rfl⟩)
     (by
       intro x hx
       simp [bfsMap, mkeys] at hx
       rcases hx with rfl | rfl
       · exact ⟨0, HasPathN.refl⟩
       · exact ⟨1, HasPathN.step HasPathN.refl rfl
           (List.mem_singleton.mpr rfl)⟩)).1 (by decide)⟩

/-- Values stored in a `State` mapping as simulated by `diff` of
src/hyena/simul.py: Python ints (and enum/bool values collapse to these),
`None`, nested `State` mappings (a struct name and ordered field entries,
in the struct's fixed declaration order), and tuples. -/
inductive SVal where
  | i : Int → SVal
  | noneV : SVal
  | st : String → List (String × SVal) → SVal
  | tup : List SVal → SVal

/-- Python exceptions that `diff` can raise: `KeyError` from a failed
mapping subscript, `TypeError` from subscripting or zipping a
non-container, `AttributeError` from `.items()` on a non-`State`, and
`IndexError` from `old[0]` on an empty tuple. -/
inductive DErr where
  | keyErr : DErr
  | typeErr : DErr
  | attrErr : DErr
  | idxErr : DErr
deriving DecidableEq

mutual

/-- Python `==` on stored values. `State` is a `frozendict` subclass, so
two states compare equal as dicts (the `struct` label lives in
`__dict__` and is ignored); states captured from the same struct list
their fields in the struct's fixed declaration order, so dict equality
coincides with the ordered entry-list equality used here. -/
def svalEq : SVal → SVal → Bool
  | .i a, .i b => a == b
  | .noneV, .noneV => true
  | .st _ e1, .st _ e2 => entsEq e1 e2
  | .tup l1, .tup l2 => listEq l1 l2
  | _, _ => false

def entsEq : List (String × SVal) → List (String × SVal) → Bool
  | [], [] => true
  | (k1, v1) :: r1, (k2, v2) :: r2 => k1 == k2 && svalEq v1 v2 && entsEq r1 r2
  | _, _ => false

def listEq : List SVal → List SVal → Bool
  | [], [] => true
  | v1 :: r1, v2 :: r2 => svalEq v1 v2 && listEq r1 r2
  | _, _ => false

end

def svalIsSt : SVal → Bool
  | .st _ _ => true
  | _ => false

def svalIsNone : SVal → Bool
  | .noneV => true
  | _ => false

/-- Python truthiness of a stored value; a `State` (frozendict) is truthy
exactly when it has at least one entry. -/
def svalTruthy : SVal → Bool
  | .i n => n != 0
  | .noneV => false
  | .st _ e => !e.isEmpty
  | .tup l => !l.isEmpty

/-- Dictionary lookup over the ordered entries of a `State`. -/
def svalLookup : List (String × SVal) → String → Option SVal
  | [], _ => none
  | (k, v) :: r, key => if key == k then some v else svalLookup r key

/-- Python subscript `v[key]` with a string key: a `State` looks the key
up (`KeyError` if absent); ints, `None` and tuples raise `TypeError`. -/
def pySubscr : SVal → String → Except DErr SVal
  | .st _ e, key =>
      match svalLookup e key with
      | some v => .ok v
      | none => .error .keyErr
  | _, _ => .error .typeErr

mutual

/-- The `diff` function of src/hyena/simul.py lines 62-79. `pyDiff`
enters `diff(old_state, new_state)`: `.items()` on a non-`State` raises
`AttributeError`; otherwise the loop over the old entries runs
(`diffItems`) and the result is wrapped as `State(old_state.struct, ret)`.
The loop body for one entry `(key, old)`: `new = new_state[key]`; skip
if `new == old`; if `old` is a `State`, recurse as written in the source
via `diff(old, new[key])` - subscripting the NEW entry by the same key -
and keep the sub-diff if non-empty; if `old` is a tuple (whose first
element - `IndexError` when empty - is a `State`), zip `old` with `new`
(`TypeError` if `new` is not a tuple; a `State` there would iterate over
its keys and fail with `TypeError` one level deeper, collapsed here to
the same error), diff element-wise with `None` holes for unchanged
elements (`diffZip`), and keep the tuple if any hole is filled;
otherwise record `new` wholesale. -/
def pyDiff : SVal → SVal → Except DErr SVal
  | .st struct ents, ns =>
      match diffItems ents ns with
      | .ok ret => .ok (.st struct ret)
      | .error e => .error e
  | _, _ => .error .attrErr

def diffItems : List (String × SVal) → SVal → Except DErr (List (String × SVal))
  | [], _ => .ok []
  | (key, old) :: rest, ns =>
      match pySubscr ns key with
      | .error e => .error e
      | .ok new =>
        if svalEq new old then diffItems rest ns
        else
          match old with
          | .st s1 e1 =>
              match pySubscr new key with
              | .error e => .error e
              | .ok nk =>
                match pyDiff (.st s1 e1) nk with
                | .error e => .error e
                | .ok d =>
                    if svalTruthy d then
                      match diffItems rest ns with
                      | .ok r => .ok ((key, d) :: r)
                      | .error e => .error e
                    else diffItems rest ns
          | .tup [] => .error .idxErr
          | .tup (h :: tl) =>
              if svalIsSt h then
                match new with
                | .tup l2 =>
                    match diffZip (h :: tl) l2 with
                    | .error e => .error e
                    | .ok t =>
                        if t.any (fun x => !(svalIsNone x)) then
                          match diffItems rest ns with
                          | .ok r => .ok ((key, .tup t) :: r)
                          | .error e => .error e
                        else diffItems rest ns
                | _ => .error .typeErr
              else
                match diffItems rest ns with
                | .ok r => .ok ((key, new) :: r)
                | .error e => .error e
          | _ =>
              match diffItems rest ns with
              | .ok r => .ok ((key, new) :: r)
              | .error e => .error e

def diffZip : List SVal → List SVal → Except DErr (List SVal)
  | [], _ => .ok []
  | _ :: _, [] => .ok []
  | o :: os, v :: vs =>
      match pyDiff o v with
      | .error e => .error e
      | .ok d =>
          match diffZip os vs with
          | .ok r => .ok ((if svalTruthy d then d else .noneV) :: r)
          | .error e => .error e

end

/-- Total lookup used by the spec-side diff below. -/
def diffSpecGet (n : SVal) (key : String) : SVal :=
  match n with
  | .st _ e2 => (svalLookup e2 key).getD .noneV
  | _ => .noneV

mutual

/-- Spec-side diff, written from the spec's words rather than the code:
it returns only the substructure whose values differ, recursing into a
nested sub-state VALUE directly (`diffSpec old new`, where the source
recurses on `diff(old, new[key])`), recursing element-wise into tuples
of sub-states with unchanged elements marked absent (`noneV`), and never
including an entry whose values are equal; it is total where the code
can raise. -/
def diffSpec : SVal → SVal → SVal
  | .st struct ents, ns => .st struct (diffSpecItems ents ns)
  | _, _ => .noneV

def diffSpecItems : List (String × SVal) → SVal → List (String × SVal)
  | [], _ => []
  | (key, old) :: rest, ns =>
      if svalEq (diffSpecGet ns key) old then diffSpecItems rest ns
      else
        match old with
        | .st s1 e1 =>
            if svalTruthy (diffSpec (.st s1 e1) (diffSpecGet ns key)) then
              (key, diffSpec (.st s1 e1) (diffSpecGet ns key)) :: diffSpecItems rest ns
            else diffSpecItems rest ns
        | .tup l =>
            if l.all svalIsSt && !l.isEmpty then
              match diffSpecGet ns key with
              | .tup l2 =>
                  if (diffSpecZip l l2).any (fun x => !(svalIsNone x)) then
                    (key, .tup (diffSpecZip l l2)) :: diffSpecItems rest ns
                  else diffSpecItems rest ns
              | _ => (key, diffSpecGet ns key) :: diffSpecItems rest ns
            else (key, diffSpecGet ns key) :: diffSpecItems rest ns
        | _ => (key, diffSpecGet ns key) :: diffSpecItems rest ns

def diffSpecZip : List SVal → List SVal → List SVal
  | [], _ => []
  | _ :: _, [] => []
  | o :: os, v :: vs =>
      (if svalTruthy (diffSpec o v) then diffSpec o v else .noneV) :: diffSpecZip os vs

end

/-- Shape compatibility for an entry of a sub-state occurring inside a
tuple: the old value `x` and new value `y` are either equal, or `x` is a
primitive (int or `None`) or a nonempty tuple not headed by a sub-state,
in which case `diff` records `y` wholesale. -/
def compatPrimVal (x y : SVal) : Bool :=
  svalEq y x ||
  (match x with
   | .i _ => true
   | .noneV => true
   | .tup (h :: _) => !(svalIsSt h)
   | _ => false)

/-- Entry lists of an old and a new sub-state are compatible when they
carry the same keys in the same order without duplicates and each value
pair is `compatPrimVal`-compatible. -/
def entsCompatI : List (String × SVal) → List (String × SVal) → Bool
  | [], [] => true
  | (k1, x) :: r1, (k2, y) :: r2 =>
      k1 == k2 && decide (k1 ∉ r1.map Prod.fst) && compatPrimVal x y &&
        entsCompatI r1 r2
  | _, _ => false

def compatInner : SVal → SVal → Bool
  | .st _ e1, .st _ e2 => entsCompatI e1 e2
  | _, _ => false

def compatZipI : List SVal → List SVal → Bool
  | [], [] => true
  | o :: os, v :: vs => compatInner o v && compatZipI os vs
  | _, _ => false

/-- Shape compatibility for a top-level entry: as `compatPrimVal`, but a
nonempty tuple of sub-states is also allowed when the new value is a
tuple of sub-states compatible element-wise (`compatZipI`). A directly
nested sub-state is allowed only when equal - on a differing one the
source's `diff(old, new[key])` mis-subscripts the new sub-state by the
parent key. -/
def compatTopVal (x y : SVal) : Bool :=
  svalEq y x ||
  (match x with
   | .i _ => true
   | .noneV => true
   | .tup (h :: tl) =>
       if svalIsSt h then
         match y with
         | .tup l2 => compatZipI (h :: tl) l2
         | _ => false
       else true
   | _ => false)

/-- Top-level compatibility of the entry lists of two states captured
from the same struct. -/
def entsCompatTop : List (String × SVal) → List (String × SVal) → Bool
  | [], [] => true
  | (k1, x) :: r1, (k2, y) :: r2 =>
      k1 == k2 && decide (k1 ∉ r1.map Prod.fst) && compatTopVal x y &&
        entsCompatTop r1 r2
  | _, _ => false

theorem svalLookup_cons_self (k : String) (v : SVal) (r : List (String × SVal)) :
    svalLookup ((k, v) :: r) k = some v := by
  simp [svalLookup]

theorem svalLookup_cons_ne (k k1 : String) (y : SVal) (r2 : List (String × SVal))
    (h : k ≠ k1) : svalLookup ((k1, y) :: r2) k = svalLookup r2 k := by
  simp [svalLookup, h]

theorem entsCompatI_lookup :
    ∀ (eo ev : List (String × SVal)), entsCompatI eo ev = true →
      ∀ kx ∈ eo, ∃ y, svalLookup ev kx.1 = some y ∧ compatPrimVal kx.2 y = true := by
  intro eo
  induction eo with
  | nil => intro ev _ kx hk; simp at hk
  | cons e1 r1 ih =>
      obtain ⟨k1, x⟩ := e1
      intro ev hc kx hk
      rcases ev with _ | ⟨⟨k2, y⟩, r2⟩
      · simp [entsCompatI] at hc
      · simp only [entsCompatI, Bool.and_eq_true, beq_iff_eq, decide_eq_true_eq] at hc
        obtain ⟨⟨⟨hkk, hnd⟩, hcp⟩, hrest⟩ := hc
        subst hkk
        rcases List.mem_cons.mp hk with rfl | hk2
        · exact ⟨y, svalLookup_cons_self k1 y r2, hcp⟩
        · obtain ⟨y2, hy2, hcp2⟩ := ih r2 hrest kx hk2
          refine ⟨y2, ?_, hcp2⟩
          rw [svalLookup_cons_ne kx.1 k1 y r2 ?_, hy2]
          intro hq
          exact hnd (hq ▸ List.mem_map_of_mem Prod.fst hk2)

theorem entsCompatTop_lookup :
    ∀ (e1 e2 : List (String × SVal)), entsCompatTop e1 e2 = true →
      ∀ kx ∈ e1, ∃ y, svalLookup e2 kx.1 = some y ∧ compatTopVal kx.2 y = true := by
  intro e1
  induction e1 with
  | nil => intro e2 _ kx hk; simp at hk
  | cons p r1 ih =>
      obtain ⟨k1, x⟩ := p
      intro e2 hc kx hk
      rcases e2 with _ | ⟨⟨k2, y⟩, r2⟩
      · simp [entsCompatTop] at hc
      · simp only [entsCompatTop, Bool.and_eq_true, beq_iff_eq, decide_eq_true_eq] at hc
        obtain ⟨⟨⟨hkk, hnd⟩, hcp⟩, hrest⟩ := hc
        subst hkk
        rcases List.mem_cons.mp hk with rfl | hk2
        · exact ⟨y, svalLookup_cons_self k1 y r2, hcp⟩
        · obtain ⟨y2, hy2, hcp2⟩ := ih r2 hrest kx hk2
          refine ⟨y2, ?_, hcp2⟩
          rw [svalLookup_cons_ne kx.1 k1 y r2 ?_, hy2]
          intro hq
          exact hnd (hq ▸ List.mem_map_of_mem Prod.fst hk2)

theorem entsEq_iff_lookup :
    ∀ (eo ev : List (String × SVal)), entsCompatI eo ev = true →
      (entsEq ev eo = true ↔
        ∀ kx ∈ eo, svalEq ((svalLookup ev kx.1).getD .noneV) kx.2 = true) := by
  intro eo
  induction eo with
  | nil =>
      intro ev hc
      rcases ev with _ | ⟨⟨k2, y⟩, r2⟩
      · simp [entsEq]
      · simp [entsCompatI] at hc
  | cons p r1 ih =>
      obtain ⟨k1, x⟩ := p
      intro ev hc
      rcases ev with _ | ⟨⟨k2, y⟩, r2⟩
      · simp [entsCompatI] at hc
      · simp only [entsCompatI, Bool.and_eq_true, beq_iff_eq, decide_eq_true_eq] at hc
        obtain ⟨⟨⟨hkk, hnd⟩, hcp⟩, hrest⟩ := hc
        subst hkk
        have hlk : ∀ kx ∈ r1, svalLookup ((k1, y) :: r2) kx.1 = svalLookup r2 kx.1 := by
          intro kx hk2
          refine svalLookup_cons_ne kx.1 k1 y r2 ?_
          intro hq
          exact hnd (hq ▸ List.mem_map_of_mem Prod.fst hk2)
        constructor
        · intro he
          simp only [entsEq, Bool.and_eq_true, beq_iff_eq] at he
          obtain ⟨⟨hk2, hxy⟩, htl⟩ := he
          intro kx hk
          rcases List.mem_cons.mp hk with rfl | hk2m
          · simp [svalLookup_cons_self, hxy]
          · rw [hlk kx hk2m]
            exact (ih r2 hrest).mp htl kx hk2m
        · intro hall
          have hhd := hall (k1, x) (List.mem_cons_self _ _)
          simp only [svalLookup_cons_self, Option.getD_some] at hhd
          have htl : ∀ kx ∈ r1, svalEq ((svalLookup r2 kx.1).getD .noneV) kx.2 = true := by
            intro kx hk2
            rw [← hlk kx hk2]
            exact hall kx (List.mem_cons_of_mem _ hk2)
          simp only [entsEq, Bool.and_eq_true, beq_iff_eq]
          exact ⟨⟨by simp, hhd⟩, (ih r2 hrest).mpr htl⟩

theorem diffItems_inner (sv : String) (ev : List (String × SVal)) :
    ∀ (eo : List (String × SVal)),
      (∀ kx ∈ eo, ∃ y, svalLookup ev kx.1 = some y ∧ compatPrimVal kx.2 y = true) →
      diffItems eo (.st sv ev) = .ok (diffSpecItems eo (.st sv ev)) ∧
      (diffSpecItems eo (.st sv ev) = [] ↔
        ∀ kx ∈ eo, svalEq ((svalLookup ev kx.1).getD .noneV) kx.2 = true) := by
  intro eo
  induction eo with
  | nil =>
      intro _
      exact ⟨rfl, by simp [show diffSpecItems [] (SVal.st sv ev) = [] from rfl]⟩
  | cons p r1 ih =>
      obtain ⟨k1, x⟩ := p
      intro hall
      obtain ⟨y, hy, hcp⟩ := hall (k1, x) (List.mem_cons_self _ _)
      simp only at hy hcp
      obtain ⟨ih1, ih2⟩ := ih (fun kx hk => hall kx (List.mem_cons_of_mem _ hk))
      have hps : pySubscr (.st sv ev) k1 = .ok y := by simp [pySubscr, hy]
      have hget : diffSpecGet (.st sv ev) k1 = y := by simp [diffSpecGet, hy]
      cases hsv : svalEq y x with
      | true =>
          have hcode : diffItems ((k1, x) :: r1) (.st sv ev) =
              diffItems r1 (.st sv ev) := by
            rw [diffItems.eq_def]
            dsimp only
            rw [hps]
            dsimp only
            rw [if_pos hsv]
          have hspec : diffSpecItems ((k1, x) :: r1) (.st sv ev) =
              diffSpecItems r1 (.st sv ev) := by
            rw [diffSpecItems.eq_def]
            dsimp only
            rw [hget]
            rw [if_pos hsv]
          refine ⟨by rw [hcode, hspec, ih1], ?_⟩
          rw [hspec, ih2]
          simp [hy, hsv]
      | false =>
          have hne : ¬(svalEq y x = true) := by simp [hsv]
          rcases x with a | _ | ⟨s1, e1⟩ | l
          · have hcode : diffItems ((k1, .i a) :: r1) (.st sv ev) =
                .ok ((k1, y) :: diffSpecItems r1 (.st sv ev)) := by
              rw [diffItems.eq_def]
              dsimp only
              rw [hps]
              dsimp only
              rw [if_neg hne]
              rw [ih1]
            have hspec : diffSpecItems ((k1, .i a) :: r1) (.st sv ev) =
                (k1, y) :: diffSpecItems r1 (.st sv ev) := by
              rw [diffSpecItems.eq_def]
              dsimp only
              rw [hget]
              rw [if_neg hne]
            refine ⟨by rw [hcode, hspec], ?_⟩
            rw [hspec]
            simp [hy, hsv]
          · have hcode : diffItems ((k1, .noneV) :: r1) (.st sv ev) =
                .ok ((k1, y) :: diffSpecItems r1 (.st sv ev)) := by
              rw [diffItems.eq_def]
              dsimp only
              rw [hps]
              dsimp only
              rw [if_neg hne]
              rw [ih1]
            have hspec : diffSpecItems ((k1, .noneV) :: r1) (.st sv ev) =
                (k1, y) :: diffSpecItems r1 (.st sv ev) := by
              rw [diffSpecItems.eq_def]
              dsimp only
              rw [hget]
              rw [if_neg hne]
            refine ⟨by rw [hcode, hspec], ?_⟩
            rw [hspec]
            simp [hy, hsv]
          · simp [compatPrimVal, hsv] at hcp
          · rcases l with _ | ⟨h2, tl⟩
            · simp [compatPrimVal, hsv] at hcp
            · have hsst : svalIsSt h2 = false := by
                simp [compatPrimVal, hsv] at hcp
                simpa using hcp
              have hnst : ¬(svalIsSt h2 = true) := by simp [hsst]
              have hgd : ¬(((h2 :: tl).all svalIsSt && !(h2 :: tl).isEmpty) = true) := by
                simp [List.all_cons, hsst]
              have hcode : diffItems ((k1, .tup (h2 :: tl)) :: r1) (.st sv ev) =
                  .ok ((k1, y) :: diffSpecItems r1 (.st sv ev)) := by
                rw [diffItems.eq_def]
                dsimp only
                rw [hps]
                dsimp only
                rw [if_neg hne]
                rw [if_neg hnst]
                rw [ih1]
              have hspec : diffSpecItems ((k1, .tup (h2 :: tl)) :: r1) (.st sv ev) =
                  (k1, y) :: diffSpecItems r1 (.st sv ev) := by
                rw [diffSpecItems.eq_def]
                dsimp only
                rw [hget]
                rw [if_neg hne]
                rw [if_neg hgd]
              refine ⟨by rw [hcode, hspec], ?_⟩
              rw [hspec]
              simp [hy, hsv]

theorem diffZip_compat :
    ∀ (l l2 : List SVal), compatZipI l l2 = true →
      diffZip l l2 = .ok (diffSpecZip l l2) ∧
      l.all svalIsSt = true ∧
      (diffSpecZip l l2).any (fun x => !(svalIsNone x)) = !(listEq l2 l) := by
  intro l
  induction l with
  | nil =>
      intro l2 hc
      rcases l2 with _ | ⟨v, vs⟩
      · exact ⟨rfl, rfl, rfl⟩
      · simp [compatZipI] at hc
  | cons o os ih =>
      intro l2 hc
      rcases l2 with _ | ⟨v, vs⟩
      · simp [compatZipI] at hc
      · simp only [compatZipI, Bool.and_eq_true] at hc
        obtain ⟨hio, hrest⟩ := hc
        rcases o with a | _ | ⟨s1, eo⟩ | lo
        · simp [compatInner] at hio
        · simp [compatInner] at hio
        · rcases v with b | _ | ⟨s2, ev⟩ | lv
          · simp [compatInner] at hio
          · simp [compatInner] at hio
          · have hio2 : entsCompatI eo ev = true := hio
            obtain ⟨hin1, hin2⟩ := diffItems_inner s2 ev eo (entsCompatI_lookup eo ev hio2)
            obtain ⟨hz1, hz2, hz3⟩ := ih vs hrest
            have hpd : pyDiff (.st s1 eo) (.st s2 ev) =
                .ok (.st s1 (diffSpecItems eo (.st s2 ev))) := by
              rw [pyDiff.eq_def]
              dsimp only
              rw [hin1]
            have hcomb : diffSpecItems eo (.st s2 ev) = [] ↔ entsEq ev eo = true :=
              hin2.trans (entsEq_iff_lookup eo ev hio2).symm
            have hbe : (diffSpecItems eo (.st s2 ev)).isEmpty = entsEq ev eo := by
              cases hq : entsEq ev eo with
              | true => simp [List.isEmpty_iff, hcomb, hq]
              | false =>
                  rw [List.isEmpty_eq_false_iff_exists_mem]
                  rcases hd : diffSpecItems eo (.st s2 ev) with _ | ⟨z, zs⟩
                  · rw [hq] at hcomb
                    simp at hcomb
                    exact absurd hd hcomb
                  · exact ⟨z, by simp⟩
            have htr : svalTruthy (diffSpec (.st s1 eo) (.st s2 ev)) =
                !(svalEq (.st s2 ev) (.st s1 eo)) := by
              show (!(diffSpecItems eo (.st s2 ev)).isEmpty) = !(entsEq ev eo)
              rw [hbe]
            refine ⟨?_, ?_, ?_⟩
            · rw [diffZip.eq_def]
              dsimp only
              rw [hpd]
              dsimp only
              rw [hz1]
              rfl
            · simp only [List.all_cons, hz2]
              rfl
            · have hzc : diffSpecZip (.st s1 eo :: os) (.st s2 ev :: vs) =
                  (if svalTruthy (diffSpec (.st s1 eo) (.st s2 ev)) then
                    diffSpec (.st s1 eo) (.st s2 ev) else .noneV) :: diffSpecZip os vs := rfl
              rw [hzc]
              rw [List.any_cons]
              have hle : listEq (.st s2 ev :: vs) (.st s1 eo :: os) =
                  (svalEq (.st s2 ev) (.st s1 eo) && listEq vs os) := rfl
              rw [hle]
              cases hq : svalEq (.st s2 ev) (.st s1 eo) with
              | true =>
                  rw [hq] at htr
                  have htrf : svalTruthy (diffSpec (.st s1 eo) (.st s2 ev)) = false := by
                    rw [htr]
                    rfl
                  rw [if_neg (by rw [htrf]; exact Bool.false_ne_true)]
                  rw [show svalIsNone SVal.noneV = true from rfl]
                  rw [Bool.not_true, Bool.false_or, Bool.true_and]
                  exact hz3
              | false =>
                  rw [hq] at htr
                  have htrt : svalTruthy (diffSpec (.st s1 eo) (.st s2 ev)) = true := by
                    rw [htr]
                    rfl
                  rw [if_pos htrt]
                  rw [show svalIsNone (diffSpec (SVal.st s1 eo) (SVal.st s2 ev)) = false from rfl]
                  rw [Bool.not_false, Bool.true_or, Bool.false_and, Bool.not_false]
          · simp [compatInner] at hio
        · simp [compatInner] at hio

theorem diffItems_top (s2 : String) (e2 : List (String × SVal)) :
    ∀ (e1 : List (String × SVal)),
      (∀ kx ∈ e1, ∃ y, svalLookup e2 kx.1 = some y ∧ compatTopVal kx.2 y = true) →
      diffItems e1 (.st s2 e2) = .ok (diffSpecItems e1 (.st s2 e2)) ∧
      (diffSpecItems e1 (.st s2 e2)).map Prod.fst =
        (e1.filter
          (fun kx => !(svalEq ((svalLookup e2 kx.1).getD .noneV) kx.2))).map Prod.fst := by
  intro e1
  induction e1 with
  | nil =>
      intro _
      exact ⟨rfl, by simp [show diffSpecItems [] (SVal.st s2 e2) = [] from rfl]⟩
  | cons p r1 ih =>
      obtain ⟨k1, x⟩ := p
      intro hall
      obtain ⟨y, hy, hcp⟩ := hall (k1, x) (List.mem_cons_self _ _)
      simp only at hy hcp
      obtain ⟨ih1, ih2⟩ := ih (fun kx hk => hall kx (List.mem_cons_of_mem _ hk))
      have hps : pySubscr (.st s2 e2) k1 = .ok y := by simp [pySubscr, hy]
      have hget : diffSpecGet (.st s2 e2) k1 = y := by simp [diffSpecGet, hy]
      cases hsv : svalEq y x with
      | true =>
          have hcode : diffItems ((k1, x) :: r1) (.st s2 e2) =
              diffItems r1 (.st s2 e2) := by
            rw [diffItems.eq_def]
            dsimp only
            rw [hps]
            dsimp only
            rw [if_pos hsv]
          have hspec : diffSpecItems ((k1, x) :: r1) (.st s2 e2) =
              diffSpecItems r1 (.st s2 e2) := by
            rw [diffSpecItems.eq_def]
            dsimp only
            rw [hget]
            rw [if_pos hsv]
          refine ⟨by rw [hcode, hspec, ih1], ?_⟩
          rw [hspec]
          simp [List.filter_cons, hy, hsv, ih2]
      | false =>
          have hne : ¬(svalEq y x = true) := by simp [hsv]
          rcases x with a | _ | ⟨s1, e0⟩ | l
          · have hcode : diffItems ((k1, .i a) :: r1) (.st s2 e2) =
                .ok ((k1, y) :: diffSpecItems r1 (.st s2 e2)) := by
              rw [diffItems.eq_def]
              dsimp only
              rw [hps]
              dsimp only
              rw [if_neg hne]
              rw [ih1]
            have hspec : diffSpecItems ((k1, .i a) :: r1) (.st s2 e2) =
                (k1, y) :: diffSpecItems r1 (.st s2 e2) := by
              rw [diffSpecItems.eq_def]
              dsimp only
              rw [hget]
              rw [if_neg hne]
            refine ⟨by rw [hcode, hspec], ?_⟩
            rw [hspec]
            simp [List.filter_cons, hy, hsv, ih2]
          · have hcode : diffItems ((k1, .noneV) :: r1) (.st s2 e2) =
                .ok ((k1, y) :: diffSpecItems r1 (.st s2 e2)) := by
              rw [diffItems.eq_def]
              dsimp only
              rw [hps]
              dsimp only
              rw [if_neg hne]
              rw [ih1]
            have hspec : diffSpecItems ((k1, .noneV) :: r1) (.st s2 e2) =
                (k1, y) :: diffSpecItems r1 (.st s2 e2) := by
              rw [diffSpecItems.eq_def]
              dsimp only
              rw [hget]
              rw [if_neg hne]
            refine ⟨by rw [hcode, hspec], ?_⟩
            rw [hspec]
            simp [List.filter_cons, hy, hsv, ih2]
          · simp [compatTopVal, hsv] at hcp
          · rcases l with _ | ⟨h2, tl⟩
            · simp [compatTopVal, hsv] at hcp
            · cases hsst : svalIsSt h2 with
              | false =>
                  have hnst : ¬(svalIsSt h2 = true) := by simp [hsst]
                  have hgd : ¬(((h2 :: tl).all svalIsSt && !(h2 :: tl).isEmpty) = true) := by
                    simp [List.all_cons, hsst]
                  have hcode : diffItems ((k1, .tup (h2 :: tl)) :: r1) (.st s2 e2) =
                      .ok ((k1, y) :: diffSpecItems r1 (.st s2 e2)) := by
                    rw [diffItems.eq_def]
                    dsimp only
                    rw [hps]
                    dsimp only
                    rw [if_neg hne]
                    rw [if_neg hnst]
                    rw [ih1]
                  have hspec : diffSpecItems ((k1, .tup (h2 :: tl)) :: r1) (.st s2 e2) =
                      (k1, y) :: diffSpecItems r1 (.st s2 e2) := by
                    rw [diffSpecItems.eq_def]
                    dsimp only
                    rw [hget]
                    rw [if_neg hne]
                    rw [if_neg hgd]
                  refine ⟨by rw [hcode, hspec], ?_⟩
                  rw [hspec]
                  simp [List.filter_cons, hy, hsv, ih2]
              | true =>
                  simp only [compatTopVal, hsv, Bool.false_or, hsst, if_true] at hcp
                  rcases y with b | _ | ⟨sy, ey⟩ | l2
                  · simp at hcp
                  · simp at hcp
                  · simp at hcp
                  · obtain ⟨hz1, hz2, hz3⟩ := diffZip_compat (h2 :: tl) l2 hcp
                    have hgd : ((h2 :: tl).all svalIsSt && !(h2 :: tl).isEmpty) = true := by
                      simp [hz2]
                    have hleq : svalEq (.tup l2) (.tup (h2 :: tl)) =
                        listEq l2 (h2 :: tl) := rfl
                    have hany : (diffSpecZip (h2 :: tl) l2).any
                        (fun x => !(svalIsNone x)) = true := by
                      rw [hz3]
                      rw [hleq] at hsv
                      rw [hsv]
                      rfl
                    have hcode : diffItems ((k1, .tup (h2 :: tl)) :: r1) (.st s2 e2) =
                        .ok ((k1, .tup (diffSpecZip (h2 :: tl) l2)) ::
                          diffSpecItems r1 (.st s2 e2)) := by
                      rw [diffItems.eq_def]
                      dsimp only
                      rw [hps]
                      dsimp only
                      rw [if_neg hne]
                      rw [if_pos hsst]
                      rw [hz1]
                      dsimp only
                      rw [if_pos hany]
                      rw [ih1]
                    have hspec : diffSpecItems ((k1, .tup (h2 :: tl)) :: r1) (.st s2 e2) =
                        (k1, .tup (diffSpecZip (h2 :: tl) l2)) ::
                          diffSpecItems r1 (.st s2 e2) := by
                      rw [diffSpecItems.eq_def]
                      dsimp only
                      rw [hget]
                      rw [if_neg hne]
                      rw [if_pos hgd]
                      dsimp only
                      rw [if_pos hany]
                    refine ⟨by rw [hcode, hspec], ?_⟩
                    rw [hspec]
                    simp [List.filter_cons, hy, hsv, ih2]

/-- C9 (amended): for every pair of States old and new captured from the
same struct whose entries are compatible in shape (`entsCompatTop`: same
keys in the same order; each old entry a primitive, a nonempty tuple not
headed by a sub-state, or a nonempty tuple of sub-states of primitives
matched element-wise by the new entry; a directly nested sub-state entry
only when unchanged), `diff(old, new)` raises nothing and returns a
State containing exactly the entries whose values differ between old
and new - in old's declaration order - recursing element-wise into
tuples of sub-states with unchanged elements marked absent, equal
entries never appearing, as computed by the spec-side `diffSpec`. -/
theorem diff_exact_amended (s1 s2 : String)
    (e1 e2 : List (String × SVal)) (hc : entsCompatTop e1 e2 = true) :
    pyDiff (.st s1 e1) (.st s2 e2) = .ok (diffSpec (.st s1 e1) (.st s2 e2)) ∧
    diffSpec (.st s1 e1) (.st s2 e2) = .st s1 (diffSpecItems e1 (.st s2 e2)) ∧
    (diffSpecItems e1 (.st s2 e2)).map Prod.fst =
      (e1.filter
        (fun kx => !(svalEq ((svalLookup e2 kx.1).getD .noneV) kx.2))).map Prod.fst := by
  obtain ⟨h1, h2⟩ := diffItems_top s2 e2 e1 (entsCompatTop_lookup e1 e2 hc)
  refine ⟨?_, rfl, h2⟩
  rw [pyDiff.eq_def]
  dsimp only
  rw [h1]
  rfl

/-- Old state for the C9 witness: an int, a `None`, a tuple of ints and a
tuple of two sub-states. -/
def diffWold : List (String × SVal) :=
  [("x", .i 0), ("f", .noneV), ("v", .tup [.i 1, .i 2]),
   ("n", .tup [.st "node" [("c", .i 0), ("p", .i 7)],
               .st "node" [("c", .i 1), ("p", .i 8)]])]

/-- New state for the C9 witness: `x` changed, `f` and `v` unchanged, and
the second sub-state of `n` changed in its `c` field. -/
def diffWnew : List (String × SVal) :=
  [("x", .i 3), ("f", .noneV), ("v", .tup [.i 1, .i 2]),
   ("n", .tup [.st "node" [("c", .i 0), ("p", .i 7)],
               .st "node" [("c", .i 2), ("p", .i 8)]])]

/-- C9 (witness): the amended claim evaluated at a concrete pair of
states exercising every allowed shape. -/
theorem diff_exact_amended_witness :
    entsCompatTop diffWold diffWnew = true ∧
    (pyDiff (.st "system" diffWold) (.st "system" diffWnew) =
      .ok (diffSpec (.st "system" diffWold) (.st "system" diffWnew)) ∧
     diffSpec (.st "system" diffWold) (.st "system" diffWnew) =
      .st "system" (diffSpecItems diffWold (.st "system" diffWnew)) ∧
     (diffSpecItems diffWold (.st "system" diffWnew)).map Prod.fst =
      (diffWold.filter
        (fun kx => !(svalEq ((svalLookup diffWnew kx.1).getD .noneV) kx.2))).map Prod.fst) :=
  ⟨rfl, diff_exact_amended "system" "system" diffWold diffWnew rfl⟩

/-- C9 (counterexample): on two states whose only entry is a directly
nested differing sub-state, `diff` raises `KeyError` instead of
returning the differing substructure the claim describes, because the
source recurses via `diff(old, new[key])`, subscripting the new
sub-state `new` by the parent key `"sub"` which it does not contain; the
spec-side `diffSpec` returns the expected nested result. The last
conjunct records the exact differing keys of the witness pair. -/
theorem diff_nested_counterexample :
    pyDiff (.st "system" [("sub", .st "clock" [("x", .i 0)])])
           (.st "system" [("sub", .st "clock" [("x", .i 1)])]) = .error .keyErr ∧
    diffSpec (.st "system" [("sub", .st "clock" [("x", .i 0)])])
             (.st "system" [("sub", .st "clock" [("x", .i 1)])]) =
      .st "system" [("sub", .st "clock" [("x", .i 1)])] ∧
    (diffSpecItems diffWold (.st "system" diffWnew)).map Prod.fst = ["x", "n"] :=
  ⟨rfl, rfl, rfl⟩

end Hyena
